import Mathlib

/-!
A shallow embedding of the `text-metrics` library (the character classifier,
whitespace normalisation, unit conversion, the two line-packing policies and
the font-size search), together with theorems checking the specification's
claims against it.

Modelling conventions:
* JS strings are modelled as `List Char` (one entry per code point, as
  produced by JS `for...of` iteration).  Where the source indexes by UTF-16
  code unit this is noted at the definition.
* JS numbers are modelled as `ℚ` (exact arithmetic; the claims under test
  are about the algorithms, not about binary floating point rounding).
  `Math.floor`/`Math.ceil`/`Math.round` become `Int.floor`/`Int.ceil`/
  `⌊x + 1/2⌋`.  JS `NaN` results are modelled as `Option` `none` where they
  can actually arise.
* Fallible code (`throw`) returns `Except`.
-/

/-- List of the JS regexp `\s` whitespace characters outside the
`U+2000`–`U+200A` range (also the `String.prototype.trim` set). -/
def jsWSList : List Char :=
  [' ', '\t', '\n', '\r', '\x0b', '\x0c',
   ' ', ' ', ' ', ' ', ' ', ' ', '　',
   '﻿']

/-- Membership in the JS regexp `\s` whitespace class. -/
def jsWS (c : Char) : Bool :=
  jsWSList.contains c || (0x2000 ≤ c.toNat && c.toNat ≤ 0x200A)

/-- JS `Math.round` on an exact rational: round half toward positive
infinity. -/
def mathRound (q : ℚ) : ℤ := ⌊q + 1/2⌋

/-- JS `Math.ceil` on an exact rational. -/
def mathCeil (q : ℚ) : ℤ := ⌈q⌉

/- ------------------------------------------------------------------
   Break-category tables (module-level `Set<string>` constants).
   ------------------------------------------------------------------ -/

/-- B2 Break Opportunity Before and After (the `B2` set): the em dash. -/
def b2Chars : List Char := ['—']

/-- Soft hyphen (the `SHY` set). -/
def shyChars : List Char := ['­']

/-- BA break-after characters removed on break (the `BAI` set): spaces,
tab, zero width space and the two mandatory-break characters not
interpreted by html. -/
def baiChars : List Char :=
  [' ', ' ', ' ', ' ', ' ', ' ', ' ',
   ' ', ' ', ' ', ' ', ' ', ' ', '　',
   '\u0009', '​', ' ', ' ']

/-- BA break-after characters (the `BA` set).  The source list also contains
the entries written as `'တ0'` through `'ቇ0'`; in JS those literals
are two-code-unit strings (for example `"တ" ++ "0"`) and can never
equal a single character produced by `for...of` iteration, so they are
unreachable in `checkBreak` and omitted here. -/
def baChars : List Char :=
  ['֊', '‐', '‒', '–',
   '־', '་', '፡', '៘', '៚', '‧', '|',
   '᛫', '᛬', '᛭', '⁖', '⁘', '⁙', '⁚',
   '⁛', '⁝', '⁞', '⸙', '⸪', '⸫', '⸬',
   '⸭', '⸰']

/-- BB break-before characters (the `BB` set). -/
def bbChars : List Char := ['´', '´']

/-- BK mandatory break (the `BK` set): the line feed. -/
def bkChars : List Char := ['\u000A']

/-- The break-opportunity categories returned by `checkBreak`. -/
inductive BreakType where
  | B2 | BAI | SHY | BA | BB | BK
deriving DecidableEq, Repr

/-- Model of `checkBreak(chr)`: membership tests in the priority order of
the source's short-circuit chain (`B2, BAI, SHY, BA, BB, BK`); `none`
models the falsy result for a non-breaking character. -/
def checkBreak (c : Char) : Option BreakType :=
  if b2Chars.contains c then some .B2
  else if baiChars.contains c then some .BAI
  else if shyChars.contains c then some .SHY
  else if baChars.contains c then some .BA
  else if bbChars.contains c then some .BB
  else if bkChars.contains c then some .BK
  else none

/-- A scanned breakpoint: boundary character plus its category. -/
structure Breakpoint where
  chr : Char
  type : BreakType
deriving DecidableEq, Repr

/- ------------------------------------------------------------------
   normalizeWhitespace
   ------------------------------------------------------------------ -/

/-- Values of the `white-space` argument distinguished by
`normalizeWhitespace`'s switch; every other string (and the missing
argument) falls to the default branch, modelled by `other`. -/
inductive WsMode where
  | pre | preWrap | preLine | other
deriving DecidableEq, Repr

/-- Model of `.replace(/\s+/gm, ' ')`: every maximal run of JS whitespace
becomes a single space. -/
def collapseWS : List Char → List Char
  | [] => []
  | [c] => if jsWS c then [' '] else [c]
  | c₁ :: c₂ :: rest =>
    if jsWS c₁ && jsWS c₂ then collapseWS (c₂ :: rest)
    else (if jsWS c₁ then ' ' else c₁) :: collapseWS (c₂ :: rest)

/-- JS `String.prototype.trim`. -/
def jsTrim (l : List Char) : List Char :=
  ((l.dropWhile jsWS).reverse.dropWhile jsWS).reverse

/-- Model of `.replace(/[\r\n]/gm, ' ')`. -/
def mapNL (l : List Char) : List Char :=
  l.map fun c => if c = '\r' || c = '\n' then ' ' else c

/-- Model of `normalizeWhitespace(text, ws)`.  The missing-text coercion
`(text || '')` is the empty list. -/
def normalizeWhitespace (text : List Char) (ws : WsMode) : List Char :=
  match ws with
  | .pre => text
  | .preWrap => text
  | .preLine => jsTrim (collapseWS text)
  | .other => jsTrim (collapseWS (mapNL text))

/- ------------------------------------------------------------------
   prepareText: four sequential case-insensitive global replaces.
   ------------------------------------------------------------------ -/

/-- ASCII-only case folding, as the regexp `i` flag behaves on the ASCII
patterns `<wbr>`, `<br/>`, `&shy;`, `&mdash;`. -/
def lcAscii (c : Char) : Char :=
  if 'A' ≤ c ∧ c ≤ 'Z' then Char.ofNat (c.toNat + 32) else c

/-- Try to match one literal pattern (given lower-cased) at the head of the
input, case-insensitively; returns the input after the match. -/
def matchLit : List Char → List Char → Option (List Char)
  | [], rest => some rest
  | _ :: _, [] => none
  | p :: ps, c :: cs => if lcAscii c = p then matchLit ps cs else none

/-- Match the regexp `<br\s*\/?>` (with the `i` flag) at the head of the
input.  The greedy `\s*` needs no backtracking because no whitespace
character is a slash or a closing angle bracket. -/
def matchBr (l : List Char) : Option (List Char) :=
  match matchLit ['<', 'b', 'r'] l with
  | none => none
  | some rest =>
    match rest.dropWhile jsWS with
    | '/' :: '>' :: rest' => some rest'
    | '>' :: rest' => some rest'
    | _ => none

/-- One global left-to-right replace of every match of `m` by the single
character `repl`, continuing after each match (JS `String.replace` with a
`g`-flagged regexp).  The fuel only bounds the recursion: every step
consumes at least one character, so fuel `l.length` never runs out (at fuel
`0` the list is already empty and is returned unchanged). -/
def replaceScan (m : List Char → Option (List Char)) (repl : Char) :
    ℕ → List Char → List Char
  | _, [] => []
  | 0, l => l
  | fuel + 1, c :: rest =>
    match m (c :: rest) with
    | some rest' => repl :: replaceScan m repl fuel rest'
    | none => c :: replaceScan m repl fuel rest

/-- Run one full global replace over a list. -/
def replaceAll (m : List Char → Option (List Char)) (repl : Char)
    (l : List Char) : List Char :=
  replaceScan m repl l.length l

/-- Model of `prepareText(text)`: the four replaces in source order
(`<wbr>` to zero width space, `<br\s*\/?>` to line feed, `&shy;` to soft
hyphen, `&mdash;` to em dash).  The html-entity detection that follows only
writes to the console and does not change the returned text, so it is not
modelled. -/
def prepareText (text : List Char) : List Char :=
  replaceAll (matchLit ['&', 'm', 'd', 'a', 's', 'h', ';']) '—'
    (replaceAll (matchLit ['&', 's', 'h', 'y', ';']) '­'
      (replaceAll matchBr '\u000A'
        (replaceAll (matchLit ['<', 'w', 'b', 'r', '>']) '​' text)))

/- ------------------------------------------------------------------
   pxValue: unit conversion.
   ------------------------------------------------------------------ -/

/-- ASCII decimal digit test. -/
def isDigit (c : Char) : Bool := '0' ≤ c && c ≤ '9'

/-- Numeric value of a list of decimal digits (most significant first). -/
def digitsVal (l : List Char) : ℕ := l.foldl (fun a c => 10 * a + (c.toNat - 48)) 0

/-- A finite JS number in the exact form mantissa times ten to the power
`exp10`.  Keeping the two integers separate (instead of a `ℚ`) keeps the
parser and printer kernel-computable. -/
structure JsFloat where
  mant : ℤ
  exp10 : ℤ
deriving DecidableEq, Repr

/-- Exact rational value of a `JsFloat`. -/
def JsFloat.toRat (x : JsFloat) : ℚ := x.mant * (10 : ℚ) ^ x.exp10

/-- Model of `Number.parseFloat`: skip leading whitespace, optional sign,
decimal digits with optional fraction and optional exponent, ignoring any
trailing garbage; `none` models `NaN`.  The exact value is kept (real JS
rounds to binary64; all inputs considered in this file are exactly
representable).  The `Infinity` literal is not modelled. -/
def jsParseFloat (s : List Char) : Option JsFloat :=
  let s1 := s.dropWhile jsWS
  let (neg, s2) : Bool × List Char :=
    match s1 with
    | '-' :: r => (true, r)
    | '+' :: r => (false, r)
    | r => (false, r)
  let ip := s2.takeWhile isDigit
  let r1 := s2.dropWhile isDigit
  let (fp, r2) : List Char × List Char :=
    match r1 with
    | '.' :: r => (r.takeWhile isDigit, r.dropWhile isDigit)
    | r => ([], r)
  if ip = [] ∧ fp = [] then none
  else
    let e : ℤ :=
      match r2 with
      | c :: r3 =>
        if c = 'e' ∨ c = 'E' then
          match r3 with
          | '-' :: r4 => -(digitsVal (r4.takeWhile isDigit) : ℤ)
          | '+' :: r4 => (digitsVal (r4.takeWhile isDigit) : ℤ)
          | r4 => (digitsVal (r4.takeWhile isDigit) : ℤ)
        else 0
      | [] => 0
    let mant : ℕ := digitsVal ip * 10 ^ fp.length + digitsVal fp
    some ⟨if neg then -(mant : ℤ) else (mant : ℤ), e - fp.length⟩

/-- Decimal digits of a natural number, most significant first (`fuel`
bounds the recursion; `fuel = n` is always enough digits). -/
def natDigitsAux : ℕ → ℕ → List Char → List Char
  | 0, _, acc => acc
  | f + 1, n, acc =>
    if n = 0 then acc
    else natDigitsAux f (n / 10) (Char.ofNat (48 + n % 10) :: acc)

/-- Decimal digit string of a natural number. -/
def natDigits (n : ℕ) : List Char :=
  if n = 0 then ['0'] else natDigitsAux n n []

/-- Strip factors of ten from the mantissa into the exponent, so that the
printed form has no trailing zero after the decimal point (`fuel` bounds
the recursion). -/
def canonMant : ℕ → ℕ → ℤ → ℕ × ℤ
  | 0, m, e => (m, e)
  | f + 1, m, e =>
    if m ≠ 0 ∧ m % 10 = 0 then canonMant f (m / 10) (e + 1) else (m, e)

/-- Model of `Number.prototype.toString` on the values produced by
`jsParseFloat`: the shortest plain decimal form.  The exponent notation JS
switches to for magnitudes at least `1e21` or below `1e-6` is not modelled
(no claim exercises it). -/
def jsNumToString (x : JsFloat) : List Char :=
  let n := x.mant.natAbs
  let (m, e) := canonMant n n x.exp10
  let sign : List Char := if x.mant < 0 then ['-'] else []
  if m = 0 then ['0']
  else if 0 ≤ e then sign ++ natDigits m ++ List.replicate e.toNat '0'
  else
    let ds := natDigits m
    let k := (-e).toNat
    if k < ds.length then
      sign ++ ds.take (ds.length - k) ++ '.' :: ds.drop (ds.length - k)
    else sign ++ ['0', '.'] ++ List.replicate (k - ds.length) '0' ++ ds

/-- Model of `value_.replace(valueStr, '')` with a plain string pattern:
remove the first occurrence of `pat`, scanning left to right. -/
def replaceFirstDrop (pat : List Char) : List Char → List Char
  | [] => []
  | c :: rest =>
    if pat.isPrefixOf (c :: rest) then (c :: rest).drop pat.length
    else c :: replaceFirstDrop pat rest

/-- The message of the error thrown for an unsupported unit. -/
def unsupportedMsg (unit : List Char) : List Char :=
  "The unit ".toList ++ unit ++ " is not supported".toList

/-- Base font size resolution of `pxValue`:
`Number.parseInt(prop(options, 'base-font-size', 16), 10)`.  The `prop`
helper returns the default `16` when the option is missing or falsy (`0`),
and `Number.parseInt` of an integer is itself, so the option is modelled
directly as `Option ℤ`. -/
def pxBase (baseFontSizeOpt : Option ℤ) : ℤ :=
  match baseFontSizeOpt with
  | some b => if b = 0 then 16 else b
  | none => 16

/-- Model of `pxValue(value_, options)`.  The `Option ℚ` payload is `none`
when the JS result would be `NaN`; a thrown error is `Except.error` with
the thrown message. -/
def pxValue (value_ : List Char) (baseFontSizeOpt : Option ℤ := none) :
    Except (List Char) (Option ℚ) :=
  let baseFontSize : ℤ := pxBase baseFontSizeOpt
  let value? := jsParseFloat value_
  let valueStr : List Char :=
    match value? with
    | some v => jsNumToString v
    | none => ['N', 'a', 'N']
  let unit := replaceFirstDrop valueStr value_
  if unit = ['r', 'e', 'm'] ∨ unit = ['e', 'm'] then
    .ok (value?.map fun v => v.toRat * baseFontSize)
  else if unit = ['p', 't'] then .ok (value?.map fun v => v.toRat / (96 / 72))
  else if unit = ['p', 'x'] then .ok (value?.map JsFloat.toRat)
  else .error (unsupportedMsg unit)

/- ------------------------------------------------------------------
   addWordAndLetterSpacing
   ------------------------------------------------------------------ -/

/-- JS `String.prototype.length` of a code-point list: astral code points
count as two UTF-16 units. -/
def utf16Len (l : List Char) : ℕ :=
  (l.map fun c => if c.toNat < 0x10000 then 1 else 2).sum

/-- Word count of `text.trim().replace(/\s+/gi, ' ').split(' ').length - 1`:
the number of spaces left after trimming and collapsing. -/
def countWords (text : List Char) : ℕ := (collapseWS (jsTrim text)).count ' '

/-- The reserved spacing keywords treated as zero. -/
def spacingBlacklist : List (List Char) :=
  ["inherit".toList, "initial".toList, "unset".toList, "normal".toList]

/-- Model of `addWordAndLetterSpacing(ws, ls)`.  A missing or empty value is
falsy and keeps the addon at `0`; a blacklisted keyword keeps it at `0`;
otherwise `pxValue` converts it (propagating its thrown error).  The
result is `none` when either addon is `NaN` (then every width the returned
closure computes would be `NaN`), otherwise the closure
`words * wordAddon + chars * letterAddon`. -/
def addWordAndLetterSpacing (ws ls : Option (List Char)) :
    Except (List Char) (Option (List Char → ℚ)) := do
  let wordAddon : Option ℚ ←
    match ws with
    | some w =>
      if w ≠ [] ∧ ¬spacingBlacklist.contains w then pxValue w none
      else pure (some 0)
    | none => pure (some 0)
  let letterAddon : Option ℚ ←
    match ls with
    | some l =>
      if l ≠ [] ∧ ¬spacingBlacklist.contains l then pxValue l none
      else pure (some 0)
    | none => pure (some 0)
  return match wordAddon, letterAddon with
    | some w, some l =>
      some fun text => (countWords text : ℚ) * w + (utf16Len text : ℚ) * l
    | _, _ => none

/-- Decidable equality for `Except`, used to evaluate `pxValue` results. -/
instance {ε α : Type} [DecidableEq ε] [DecidableEq α] : DecidableEq (Except ε α)
  | .error e, .error f =>
    if h : e = f then .isTrue (by rw [h]) else .isFalse (by simp [h])
  | .error _, .ok _ => .isFalse (by simp)
  | .ok _, .error _ => .isFalse (by simp)
  | .ok a, .ok b =>
    if h : a = b then .isTrue (by rw [h]) else .isFalse (by simp [h])

/- ------------------------------------------------------------------
   Line packing: scan and the two policies.
   ------------------------------------------------------------------ -/

/-- Spacing add-on closures may be the all-`NaN` closure; the measured
width of a candidate string is therefore an `Option ℚ` with `none` for
`NaN`. -/
def addW (m : List Char → ℚ) (sp : List Char → Option ℚ) (l : List Char) :
    Option ℚ :=
  (sp l).map fun s => m l + s

/-- Width after `Math.round`. -/
def roundW (w : Option ℚ) : Option ℚ := w.map fun x => (mathRound x : ℚ)

/-- Width after `Math.ceil`. -/
def ceilW (w : Option ℚ) : Option ℚ := w.map fun x => (mathCeil x : ℚ)

/-- JS comparison `w <= b` where `w` may be `NaN` (`none`): `NaN`
comparisons are false. -/
def jsLe : Option ℚ → ℚ → Prop
  | some w, b => w ≤ b
  | none, _ => False

instance : (w : Option ℚ) → (b : ℚ) → Decidable (jsLe w b)
  | some w, b => inferInstanceAs (Decidable (w ≤ b))
  | none, _ => inferInstanceAs (Decidable False)

/-- JS comparison `w > b` where `w` may be `NaN`. -/
def jsGt : Option ℚ → ℚ → Prop
  | some w, b => b < w
  | none, _ => False

instance : (w : Option ℚ) → (b : ℚ) → Decidable (jsGt w b)
  | some w, b => inferInstanceAs (Decidable (b < w))
  | none, _ => inferInstanceAs (Decidable False)

/-- The breakpoint scan of `computeLinesDefault` (its first loop): split the
text into parts at breaking characters, recording each breakpoint.  A BAI
character found while the current part is empty is skipped entirely.  The
accumulated current part is the second argument. -/
def scanParts : List Char → List Char → List (List Char) × List Breakpoint
  | [], part => if part = [] then ([], []) else ([part], [])
  | c :: rest, part =>
    match checkBreak c with
    | none => scanParts rest (part ++ [c])
    | some .BAI =>
      if part = [] then scanParts rest []
      else
        let (ps, bs) := scanParts rest []
        (part :: ps, ⟨c, .BAI⟩ :: bs)
    | some t =>
      let (ps, bs) := scanParts rest []
      (part :: ps, ⟨c, t⟩ :: bs)

/-- Membership of a text part (a string) in the BAI `Set<string>`: true
exactly when the part is a single character of the set. -/
def partIsBAIChar (p : List Char) : Bool :=
  match p with
  | [c] => baiChars.contains c
  | _ => false

/-- The packing loop of `computeLinesDefault` (its second loop), iterating
over the pairs `(breakpoints[i-1], parts[i])` for `i ≥ 1`; `line` and
`prev` are the current line and `parts[i-1]`. -/
def packLoop (m : List Char → ℚ) (sp : List Char → Option ℚ) (max : ℚ) :
    List Char → List Char → List (Breakpoint × List Char) → List (List Char)
  | line, _, [] => if line = [] then [] else [line]
  | line, prev, (bp, part) :: rest =>
    if partIsBAIChar prev ∧ partIsBAIChar part then
      packLoop m sp max line part rest
    else
      -- the soft hyphen is only rendered if we need to split
      let chr : List Char := if bp.type = .SHY then [] else [bp.chr]
      if bp.type = .BK then line :: packLoop m sp max part part rest
      else
        let cand := line ++ chr ++ part
        if jsLe (roundW (addW m sp cand)) max then
          packLoop m sp max cand part rest
        else
          match bp.type with
          | .SHY => (line ++ ['-']) :: packLoop m sp max part part rest
          | .BA => (line ++ chr) :: packLoop m sp max part part rest
          | .BAI => line :: packLoop m sp max part part rest
          | .BB => line :: packLoop m sp max (chr ++ part) part rest
          | .B2 =>
            if jsLe (addW m sp (line ++ chr)) max then
              (line ++ chr) :: packLoop m sp max part part rest
            else if jsLe (addW m sp (chr ++ part)) max then
              line :: packLoop m sp max (chr ++ part) part rest
            else line :: [bp.chr] :: packLoop m sp max part part rest
          | .BK => []
          -- the BK case of this match is unreachable (BK is handled before
          -- the width test); the JS default branch there throws
          -- 'Undefoined break', which no reachable input triggers

/-- Model of `computeLinesDefault` on an already-resolved spacing add-on:
the guard for empty text, the breakpoint scan, then the packing loop
seeded with `line = parts[0]`.  When the trailing part is empty the zip
drops the final breakpoint, exactly as the source loop bound
`i < parts.length` never reads it. -/
def computeLinesDefaultCore (m : List Char → ℚ) (sp : List Char → Option ℚ)
    (max : ℚ) (text : List Char) : List (List Char) :=
  if text = [] then []
  else
    match scanParts text [] with
    | (parts, bps) =>
      match parts with
      | [] => []
      | p0 :: rest => packLoop m sp max p0 p0 (bps.zip rest)

/-- Test whether the last character of the line is a collapsible space.
The source reads `line[lineLength - 1]`, the last UTF-16 code unit; for a
line ending in an astral code point both that code unit (a low surrogate)
and the code point itself are outside the BAI set, so testing the last
code point is faithful. -/
def lastIsBAI (line : List Char) : Bool :=
  match line.getLast? with
  | some lc => baiChars.contains lc
  | none => false

/-- The character-granular loop of `computeLinesBreakAll`.  `index` models
the source's manually-incremented counter: the `continue` statements of
the BK branch and the collapsible-space skip bypass `index++`, so it can
lag behind the iteration position; the soft-hyphen lookahead
`parameters.text[index + 1]` is read from the full text at that (possibly
stale) position.  The source indexes by UTF-16 code unit; this model
indexes by code point, which agrees on text whose prefix is free of astral
code points. -/
def breakAllLoop (m : List Char → ℚ) (sp : List Char → Option ℚ) (max : ℚ)
    (fulltext : List Char) :
    List Char → ℕ → List Char → List (List Char)
  | [], _, line => if line = [] then [] else [line]
  | c :: rest, index, line =>
    let type := checkBreak c
    if type = some .BK then line :: breakAllLoop m sp max fulltext rest index []
    else if baiChars.contains c ∧ (line = [] ∨ lastIsBAI line) then
      breakAllLoop m sp max fulltext rest index line
    else
      let w :=
        if type = some .SHY then
          -- check if we can put a character behind the soft hyphen
          let next : List Char :=
            match fulltext.get? (index + 1) with
            | some nc => [nc]
            | none => []
          ceilW (addW m sp (line ++ [c] ++ next))
        else ceilW (addW m sp (line ++ [c]))
      if jsGt w max ∧ line ≠ [] then
        match type with
        | some .SHY => (line ++ ['-']) :: breakAllLoop m sp max fulltext rest (index + 1) []
        | some .BA => (line ++ [c]) :: breakAllLoop m sp max fulltext rest (index + 1) []
        | some .BAI => line :: breakAllLoop m sp max fulltext rest (index + 1) []
        | _ => line :: breakAllLoop m sp max fulltext rest (index + 1) [c]
      else if c ≠ '­' then
        breakAllLoop m sp max fulltext rest (index + 1) (line ++ [c])
      else breakAllLoop m sp max fulltext rest (index + 1) line

/-- Model of `computeLinesBreakAll` on an already-resolved spacing
add-on. -/
def computeLinesBreakAllCore (m : List Char → ℚ) (sp : List Char → Option ℚ)
    (max : ℚ) (text : List Char) : List (List Char) :=
  if text = [] then [] else breakAllLoop m sp max text text 0 []

/-- Parameters of the two packing entry points: the measuring context
(`ctx.measureText(s).width`), the text, the width budget, and the raw
word- and letter-spacing style strings. -/
structure ComputeLinesParams where
  ctx : List Char → ℚ
  text : List Char
  max : ℚ
  wordSpacing : Option (List Char)
  letterSpacing : Option (List Char)

/-- Lift the resolved spacing closure to the `NaN`-aware form: a `NaN`
addon makes every measured width `NaN`. -/
def spFun : Option (List Char → ℚ) → List Char → Option ℚ
  | some f, l => some (f l)
  | none, _ => none

/-- Model of `computeLinesDefault(parameters)`: resolve the spacing add-on
(its `pxValue` error propagates), then scan and pack. -/
def computeLinesDefault (p : ComputeLinesParams) :
    Except (List Char) (List (List Char)) := do
  let sp ← addWordAndLetterSpacing p.wordSpacing p.letterSpacing
  return computeLinesDefaultCore p.ctx (spFun sp) p.max p.text

/-- Model of `computeLinesBreakAll(parameters)`. -/
def computeLinesBreakAll (p : ComputeLinesParams) :
    Except (List Char) (List (List Char)) := do
  let sp ← addWordAndLetterSpacing p.wordSpacing p.letterSpacing
  return computeLinesBreakAllCore p.ctx (spFun sp) p.max p.text

/- ------------------------------------------------------------------
   Reconstruction up to collapsing: the canonical erasure.
   ------------------------------------------------------------------ -/

/-- Characters dropped at breaks: collapsible whitespace and the mandatory
break character. -/
def droppable (c : Char) : Bool := baiChars.contains c || bkChars.contains c

/-- Erase everything the packers may legitimately drop or introduce:
collapsible whitespace and mandatory breaks, soft hyphens, and hyphen
renderings.  Equality of `canon` images states reconstruction of the text
up to whitespace collapsing and soft-hyphen rendering. -/
def canon (l : List Char) : List Char :=
  l.filter fun c => !droppable c && c ≠ '­' && c ≠ '-'

/-- Concatenation of the produced lines. -/
def joinLines (lines : List (List Char)) : List Char := lines.flatten

/-- The characters consumed by `packLoop` from a list of
(breakpoint, part) pairs. -/
def concatPairs : List (Breakpoint × List Char) → List Char
  | [] => []
  | (bp, part) :: rest => bp.chr :: (part ++ concatPairs rest)

/-- The characters of the scan result in text order. -/
def interleave : List (List Char) → List Breakpoint → List Char
  | [], _ => []
  | p :: ps, [] => p ++ interleave ps []
  | p :: ps, b :: bs => p ++ b.chr :: interleave ps bs

/- ------------------------------------------------------------------
   maxFontSize: the two-phase font-size search.
   ------------------------------------------------------------------ -/

/-- The decrement loop of `maxFontSize`: while `cur > max && size > 0`,
decrement the size and re-measure.  The fuel only bounds the recursion;
the loop requires `0 < size` to iterate and decrements it, so fuel
`size.toNat` never runs out. -/
def decLoop (compute : ℤ → ℤ) (max : ℤ) : ℕ → ℤ → ℤ → ℤ × ℤ
  | fuel, size, cur =>
    if max < cur ∧ 0 < size then
      match fuel with
      | 0 => (size, cur)
      | f + 1 => decLoop compute max f (size - 1) (compute (size - 1))
    else (size, cur)

/-- The increment loop of `maxFontSize`: while `cur < max`, probe
`size + 1`; if the probe overshoots return the current size, else commit.
This loop genuinely may not terminate (the source has no iteration cap),
so exhausting the fuel returns `none`, distinct from the in-language
result `some none` (JS `undefined`). -/
def incLoop (compute : ℤ → ℤ) (max : ℤ) : ℕ → ℤ → ℤ → Option (Option ℤ)
  | 0, _, _ => none
  | fuel + 1, size, cur =>
    if cur < max then
      let cur2 := compute (size + 1)
      if max < cur2 then some (if size = 0 then none else some size)
      else incLoop compute max fuel (size + 1) cur2
    else some (if size = 0 then none else some size)

/-- Model of `TextMetrics.maxFontSize` from the seeding of the search
onward.  `compute` models the closure `size => Math.ceil(this.width(text,
..., font-size: size px))` (integer-valued because of the `Math.ceil`);
`max` the resolved width budget.  The two `Math.floor` of the seeding are
`Int.fdiv`; where JS would divide by a zero `cur` (giving `Infinity` or
`NaN` and eventually no result or divergence) `Int.fdiv` returns `0`, and
the search then proceeds from size `0`.  The result is `some (some s)` for
a returned `s + "px"`, `some none` for `undefined`, `none` for exhausted
fuel (the source would still be looping).  The decrement loop runs
unconditionally, exactly as in the source; when its entry condition
(`greater`) is false it immediately returns its input. -/
def maxFontSize (fuel : ℕ) (compute : ℤ → ℤ) (max : ℤ) : Option (Option ℤ) :=
  let size0 := Int.fdiv max 2
  let cur0 := compute size0
  let size1 := Int.fdiv (size0 * max) cur0
  let cur1 := compute size1
  if cur1 = max then some (if size1 = 0 then none else some size1)
  else
    let sc := decLoop compute max size1.toNat size1 cur1
    if max < cur1 ∧ 0 < size1 then some (if sc.1 = 0 then none else some sc.1)
    else incLoop compute max fuel sc.1 sc.2

/-- Modelled from the spec: the variant of `maxFontSize` the Design Note
asks implementers to produce, with a clean if/else on the search direction
(the decrement loop only runs when the direction is "decrease", the
increment loop only otherwise). -/
def maxFontSizeIfElse (fuel : ℕ) (compute : ℤ → ℤ) (max : ℤ) :
    Option (Option ℤ) :=
  let size0 := Int.fdiv max 2
  let cur0 := compute size0
  let size1 := Int.fdiv (size0 * max) cur0
  let cur1 := compute size1
  if cur1 = max then some (if size1 = 0 then none else some size1)
  else if max < cur1 ∧ 0 < size1 then
    let sc := decLoop compute max size1.toNat size1 cur1
    some (if sc.1 = 0 then none else some sc.1)
  else incLoop compute max fuel size1 cur1

/- ------------------------------------------------------------------
   The width facade (the slice of TextMetrics.width the claims need).
   ------------------------------------------------------------------ -/

/-- Values of `text-transform` distinguished by `getStyledText`. -/
inductive TextTransform where
  | uppercase | lowercase | other
deriving DecidableEq, Repr

/-- Model of `getStyledText` (simple per-character case mapping). -/
def getStyledText (text : List Char) (tt : TextTransform) : List Char :=
  match tt with
  | .uppercase => text.map Char.toUpper
  | .lowercase => text.map Char.toLower
  | .other => text

/-- Model of `TextMetrics.width` for the element-less instance: `parseArgs`
normalises and prepares the text, an empty result returns `0`, otherwise
the styled text is measured (for multiline, the maximum over the computed
lines).  The measuring context, resolved spacing add-on and line
computation are the external collaborators, passed as functions. -/
def TextMetrics.width (m : List Char → ℚ) (sp : List Char → ℚ)
    (tt : TextTransform) (multiline : Bool)
    (linesOf : List Char → List (List Char)) (text : List Char)
    (ws : WsMode) : ℚ :=
  let t := prepareText (normalizeWhitespace text ws)
  if t = [] then 0
  else
    let styledText := getStyledText t tt
    if multiline then
      (linesOf styledText).foldl (fun prev cur => max prev (m cur + sp cur)) 0
    else m styledText + sp styledText

/- ------------------------------------------------------------------
   Lemmas about the font-size search (claims C1 and C8).
   ------------------------------------------------------------------ -/

/-- Statement of claim C1 exactly as written: for a positive integer
budget and a monotone width function, any size returned by `maxFontSize`
is within budget and the next size up is over budget. -/
def claimC1 : Prop :=
  ∀ (fuel : ℕ) (f : ℤ → ℤ) (mx s : ℤ), 0 < mx →
    (∀ a b : ℤ, a ≤ b → f a ≤ f b) →
    maxFontSize fuel f mx = some (some s) →
    f s ≤ mx ∧ mx < f (s + 1)

/-- Every whitespace character of the list is a plain space. -/
def wsOnlySpace (l : List Char) : Prop := ∀ c ∈ l, jsWS c = true → c = ' '

/-- No two adjacent whitespace characters. -/
def noAdjWS (l : List Char) : Prop :=
  l.Chain' fun a b => ¬(jsWS a = true ∧ jsWS b = true)

/-- Modelled from the spec: the packing loop as claim C4 describes it,
with every width comparison against the budget — including the secondary
measurements of the B2 tie-break — using `Math.round`.  It differs from
`packLoop` only in the two B2 conditions. -/
def packLoopB2Rounded (m : List Char → ℚ) (sp : List Char → Option ℚ) (max : ℚ) :
    List Char → List Char → List (Breakpoint × List Char) → List (List Char)
  | line, _, [] => if line = [] then [] else [line]
  | line, prev, (bp, part) :: rest =>
    if partIsBAIChar prev ∧ partIsBAIChar part then
      packLoopB2Rounded m sp max line part rest
    else
      let chr : List Char := if bp.type = .SHY then [] else [bp.chr]
      if bp.type = .BK then line :: packLoopB2Rounded m sp max part part rest
      else
        let cand := line ++ chr ++ part
        if jsLe (roundW (addW m sp cand)) max then
          packLoopB2Rounded m sp max cand part rest
        else
          match bp.type with
          | .SHY => (line ++ ['-']) :: packLoopB2Rounded m sp max part part rest
          | .BA => (line ++ chr) :: packLoopB2Rounded m sp max part part rest
          | .BAI => line :: packLoopB2Rounded m sp max part part rest
          | .BB => line :: packLoopB2Rounded m sp max (chr ++ part) part rest
          | .B2 =>
            if jsLe (roundW (addW m sp (line ++ chr))) max then
              (line ++ chr) :: packLoopB2Rounded m sp max part part rest
            else if jsLe (roundW (addW m sp (chr ++ part))) max then
              line :: packLoopB2Rounded m sp max (chr ++ part) part rest
            else line :: [bp.chr] :: packLoopB2Rounded m sp max part part rest
          | .BK => []

/-- Modelled from the spec: `computeLinesDefault` as claim C4 describes
it, rounding the B2 tie-break measurements as well. -/
def computeLinesDefaultB2RoundedCore (m : List Char → ℚ)
    (sp : List Char → Option ℚ) (max : ℚ) (text : List Char) :
    List (List Char) :=
  if text = [] then []
  else
    match scanParts text [] with
    | (parts, bps) =>
      match parts with
      | [] => []
      | p0 :: rest => packLoopB2Rounded m sp max p0 p0 (bps.zip rest)

/-- A concrete measuring context for the C4 counterexample: the candidate
`a—b` measures `20`, both one-sided B2 candidates measure `10.4`. -/
def mC4 : List Char → ℚ := fun l =>
  if l = ['a', '—', 'b'] then 20
  else if l = ['a', '—'] then 52 / 5
  else if l = ['—', 'b'] then 52 / 5
  else 0

def canonC (c : Char) : List Char := canon [c]

/-- Claim C3 as stated: for every measuring context, spacing add-on and
budget, concatenating the lines of either policy reconstructs the input
text up to the canonical erasure (collapsible whitespace and mandatory
breaks dropped at breaks, unrendered soft hyphens, rendered hyphens). -/
def claimC3 (m : List Char → ℚ) (sp : List Char → Option ℚ) (mx : ℚ)
    (text : List Char) : Prop :=
  canon (joinLines (computeLinesDefaultCore m sp mx text)) = canon text ∧
  canon (joinLines (computeLinesBreakAllCore m sp mx text)) = canon text

/-- A measuring context for the C2 counterexample: ten pixels per
character. -/
def mC2 : List Char → ℚ := fun l => 10 * l.length

/-- Shapes the packing loop's open-line accumulator can take: a line
whose rounded measured width fits the budget, a scanned text part, or a
text part prefixed by a break-before or B2 boundary character. -/
def AccOK (m : List Char → ℚ) (sp : List Char → Option ℚ) (mx : ℚ)
    (P : List (List Char)) (L : List Char) : Prop :=
  jsLe (roundW (addW m sp L)) mx ∨ L ∈ P ∨
    ∃ c p, L = c :: p ∧ p ∈ P ∧
      (checkBreak c = some .BB ∨ checkBreak c = some .B2)

/-- Shapes of the lines the default packing loop emits: an accumulator
shape, an accumulator shape extended by one retained boundary character
(a rendered hyphen, a break-after character, or a B2 character), or a
forced single B2 boundary character. -/
def LineOK (m : List Char → ℚ) (sp : List Char → Option ℚ) (mx : ℚ)
    (P : List (List Char)) (L : List Char) : Prop :=
  AccOK m sp mx P L ∨
    (∃ X c, L = X ++ [c] ∧ AccOK m sp mx P X ∧
      (c = '-' ∨ checkBreak c = some .BA ∨ checkBreak c = some .B2)) ∨
    ∃ c, L = [c] ∧ checkBreak c = some .B2

/-- Claim C2 as stated: for a non-negative, append-monotone measure,
every line of the default policy fits the budget after rounding, except
forced single-B2-boundary lines and single text parts that already
exceed the budget on their own. -/
def claimC2 (m : List Char → ℚ) (sp : List Char → Option ℚ) (mx : ℚ)
    (text : List Char) : Prop :=
  (∀ l, 0 ≤ m l) →
  (∀ x y, m x ≤ m (x ++ y) ∧ m y ≤ m (x ++ y)) →
  ∀ L ∈ computeLinesDefaultCore m sp mx text,
    jsLe (roundW (addW m sp L)) mx ∨
      (∃ c, L = [c] ∧ checkBreak c = some BreakType.B2) ∨
      (L ∈ (scanParts text []).1 ∧ ¬ jsLe (roundW (addW m sp L)) mx)

/-- Floor division of nonnegative integers is nonnegative. -/
theorem fdiv_nonneg' (a b : ℤ) (ha : 0 ≤ a) (hb : 0 ≤ b) : 0 ≤ a.fdiv b := by
  obtain ⟨m, rfl⟩ := Int.eq_ofNat_of_zero_le ha
  obtain ⟨n, rfl⟩ := Int.eq_ofNat_of_zero_le hb
  cases m with
  | zero => simp [Int.fdiv]
  | succ k =>
    exact Int.ofNat_nonneg _

/-- Inversion of the source's final `return size ? size + 'px' :
undefined`. -/
theorem ifRetSome {x s : ℤ}
    (h : (if x = 0 then (none : Option ℤ) else some x) = some s) :
    s = x ∧ x ≠ 0 := by
  by_cases h0 : x = 0
  · rw [if_pos h0] at h
    cases h
  · rw [if_neg h0] at h
    exact ⟨(Option.some.inj h).symm, h0⟩

/-- The decrement loop is a no-op whenever its entry condition is false. -/
theorem decLoop_noop (f : ℤ → ℤ) (mx : ℤ) (fuel : ℕ) (size cur : ℤ)
    (h : ¬(mx < cur ∧ 0 < size)) : decLoop f mx fuel size cur = (size, cur) := by
  rw [decLoop.eq_def]
  exact if_neg h

/-- Invariants of the decrement loop: the measurement matches the final
size; if the loop was entered and exits within budget, the next size up
overshoots; if it exits still over budget, the size has hit zero. -/
theorem decLoop_spec (f : ℤ → ℤ) (mx : ℤ) :
    ∀ (fuel : ℕ) (size cur : ℤ), cur = f size → size.toNat ≤ fuel →
      (decLoop f mx fuel size cur).2 = f (decLoop f mx fuel size cur).1 ∧
      ((mx < cur ∧ 0 < size) → (decLoop f mx fuel size cur).2 ≤ mx →
        mx < f ((decLoop f mx fuel size cur).1 + 1)) ∧
      ((mx < cur ∧ 0 < size) → mx < (decLoop f mx fuel size cur).2 →
        (decLoop f mx fuel size cur).1 = 0) := by
  intro fuel
  induction fuel with
  | zero =>
    intro size cur hc hf
    have hcond : ¬(mx < cur ∧ 0 < size) := by omega
    rw [decLoop_noop f mx 0 size cur hcond]
    exact ⟨hc, fun h => absurd h hcond, fun h => absurd h hcond⟩
  | succ k ih =>
    intro size cur hc hf
    by_cases hcond : mx < cur ∧ 0 < size
    · have hstep : decLoop f mx (k + 1) size cur
          = decLoop f mx k (size - 1) (f (size - 1)) := by
        rw [decLoop.eq_def]
        exact if_pos hcond
      obtain ⟨ih1, ih2, ih3⟩ := ih (size - 1) (f (size - 1)) rfl (by omega)
      rw [hstep]
      refine ⟨ih1, ?_, ?_⟩
      · intro _ hle
        by_cases hrec : mx < f (size - 1) ∧ 0 < size - 1
        · exact ih2 hrec hle
        · rw [decLoop_noop f mx k _ _ hrec] at hle ⊢
          have hss : size - 1 + 1 = size := by ring
          simp only [hss]
          exact hc ▸ hcond.1
      · intro _ hgt
        by_cases hrec : mx < f (size - 1) ∧ 0 < size - 1
        · exact ih3 hrec hgt
        · rw [decLoop_noop f mx k _ _ hrec] at hgt ⊢
          simp only at hgt ⊢
          push_neg at hrec
          omega
    · rw [decLoop_noop f mx (k + 1) size cur hcond]
      exact ⟨hc, fun h => absurd h hcond, fun h => absurd h hcond⟩

/-- Invariant of the increment loop: a returned size is within budget, and
strictly within budget it is locally optimal. -/
theorem incLoop_spec (f : ℤ → ℤ) (mx : ℤ) :
    ∀ (fuel : ℕ) (size cur : ℤ) (s : ℤ), cur = f size → cur ≤ mx →
      incLoop f mx fuel size cur = some (some s) →
      f s ≤ mx ∧ (f s ≠ mx → mx < f (s + 1)) := by
  intro fuel
  induction fuel with
  | zero =>
    intro size cur s _ _ h
    simp [incLoop] at h
  | succ k ih =>
    intro size cur s hc hle h
    rw [incLoop] at h
    by_cases hlt : cur < mx
    · rw [if_pos hlt] at h
      by_cases hover : mx < f (size + 1)
      · rw [if_pos hover] at h
        obtain ⟨hs, _⟩ := ifRetSome (Option.some.inj h)
        subst hs
        exact ⟨by omega, fun _ => hover⟩
      · rw [if_neg hover] at h
        exact ih (size + 1) (f (size + 1)) s rfl (by omega) h
    · rw [if_neg hlt] at h
      obtain ⟨hs, _⟩ := ifRetSome (Option.some.inj h)
      subst hs
      have heq : f s = mx := by omega
      exact ⟨by omega, fun hne => absurd heq hne⟩

/-- Claim C1 is false on the code: with the constant width function `10`
and budget `10` the exact-fit early exit returns size `5` without probing
size `6`, whose width also equals (and does not exceed) the budget. -/
theorem C1_maxFontSize_counterexample : ¬claimC1 := by
  intro h
  have h5 : maxFontSize 100 (fun _ => (10 : ℤ)) 10 = some (some 5) := by decide
  have := h 100 (fun _ => (10 : ℤ)) 10 5 (by norm_num) (fun a b _ => le_refl _) h5
  exact absurd this.2 (by norm_num)

/-- Claim C1 amended: the returned size is always within budget, and the
next size up is over budget except when the width at the returned size
equals the budget exactly — the exact-fit return paths do not probe
`size + 1`. -/
theorem C1_maxFontSize_amended (fuel : ℕ) (f : ℤ → ℤ) (mx s : ℤ)
    (hmx : 0 < mx) (hmono : ∀ a b : ℤ, a ≤ b → f a ≤ f b)
    (h : maxFontSize fuel f mx = some (some s)) :
    f s ≤ mx ∧ (f s ≠ mx → mx < f (s + 1)) := by
  simp only [maxFontSize] at h
  set size0 := Int.fdiv mx 2 with hs0
  set cur0 := f size0 with hc0
  set size1 := Int.fdiv (size0 * mx) cur0 with hs1
  set cur1 := f size1 with hc1
  by_cases h1 : cur1 = mx
  · rw [if_pos h1] at h
    obtain ⟨hs, _⟩ := ifRetSome (Option.some.inj h)
    subst hs
    exact ⟨le_of_eq h1, fun hne => absurd h1 hne⟩
  · rw [if_neg h1] at h
    by_cases hg : mx < cur1 ∧ 0 < size1
    · rw [if_pos hg] at h
      obtain ⟨d1, d2, d3⟩ := decLoop_spec f mx size1.toNat size1 cur1 hc1 le_rfl
      obtain ⟨hs, hd0⟩ := ifRetSome (Option.some.inj h)
      have hle : (decLoop f mx size1.toNat size1 cur1).2 ≤ mx := by
        by_contra hgt
        exact hd0 (hs ▸ d3 hg (by omega))
      subst hs
      exact ⟨by rw [← d1]; exact hle, fun _ => d2 hg hle⟩
    · rw [if_neg hg, decLoop_noop f mx size1.toNat size1 cur1 hg] at h
      by_cases hle : cur1 ≤ mx
      · exact incLoop_spec f mx fuel size1 cur1 s hc1 hle h
      · -- here mx < cur1 and size1 ≤ 0; the increment loop returns
        -- immediately, and monotonicity rules the remaining case out
        push_neg at hle
        have hsz : size1 ≤ 0 := by
          rcases not_and_or.mp hg with h' | h'
          · exact absurd hle h'
          · omega
        cases fuel with
        | zero => simp [incLoop] at h
        | succ k =>
          rw [incLoop, if_neg (by omega)] at h
          obtain ⟨hs, h0⟩ := ifRetSome (Option.some.inj h)
          subst hs
          have hcur0 : cur0 < 0 := by
            by_contra hcge
            push_neg at hcge
            have : 0 ≤ size1 := by
              rw [hs1]
              exact fdiv_nonneg' (size0 * mx) cur0
                (mul_nonneg (fdiv_nonneg' mx 2 (by omega) (by norm_num)) (by omega))
                hcge
            omega
          have hmono' : f size1 ≤ cur0 := by
            rw [hc0]
            refine hmono size1 size0 ?_
            have : 0 ≤ size0 := fdiv_nonneg' mx 2 (by omega) (by norm_num)
            omega
          rw [hc1] at hle
          omega

/-- Witness for the amended claim C1 with the width function doubling the
size and budget `9`: the search returns size `4`, within budget and
locally optimal. -/
theorem C1_maxFontSize_amended_witness :
    (0 < (9 : ℤ)) ∧ maxFontSize 100 (fun s => 2 * s) 9 = some (some 4) ∧
      ((fun s : ℤ => 2 * s) 4 ≤ 9 ∧
        ((fun s : ℤ => 2 * s) 4 ≠ 9 → 9 < (fun s : ℤ => 2 * s) (4 + 1))) :=
  ⟨by norm_num, by decide,
    C1_maxFontSize_amended 100 (fun s => 2 * s) 9 4 (by norm_num)
      (fun a b hab => by dsimp only; omega) (by decide)⟩

/-- Claim C8: the decrement loop of `maxFontSize` is a no-op whenever its
entry condition is false at entry, and consequently `maxFontSize` computes
the same result as the variant `maxFontSizeIfElse` guarded by a clean
if/else on the search direction. -/
theorem C8_maxFontSize_ifElse_equiv :
    (∀ (f : ℤ → ℤ) (mx : ℤ) (fuel : ℕ) (size cur : ℤ),
        ¬(mx < cur ∧ 0 < size) → decLoop f mx fuel size cur = (size, cur)) ∧
    (∀ (fuel : ℕ) (f : ℤ → ℤ) (mx : ℤ),
        maxFontSize fuel f mx = maxFontSizeIfElse fuel f mx) := by
  refine ⟨decLoop_noop, ?_⟩
  intro fuel f mx
  simp only [maxFontSize, maxFontSizeIfElse]
  set size0 := Int.fdiv mx 2 with hs0
  set cur0 := f size0 with hc0
  set size1 := Int.fdiv (size0 * mx) cur0 with hs1
  set cur1 := f size1 with hc1
  by_cases h1 : cur1 = mx
  · rw [if_pos h1, if_pos h1]
  · rw [if_neg h1, if_neg h1]
    by_cases hg : mx < cur1 ∧ 0 < size1
    · rw [if_pos hg, if_pos hg]
    · rw [if_neg hg, if_neg hg, decLoop_noop f mx size1.toNat size1 cur1 hg]

/-- Witness for claim C8: the no-op and the equivalence at concrete
inputs. -/
theorem C8_maxFontSize_ifElse_equiv_witness :
    decLoop (fun _ => (5 : ℤ)) 10 7 3 5 = (3, 5) ∧
      maxFontSize 100 (fun s => 2 * s) 9 = maxFontSizeIfElse 100 (fun s => 2 * s) 9 :=
  ⟨C8_maxFontSize_ifElse_equiv.1 (fun _ => (5 : ℤ)) 10 7 3 5 (by norm_num),
    C8_maxFontSize_ifElse_equiv.2 100 (fun s => 2 * s) 9⟩

/- ------------------------------------------------------------------
   Claim C9: behaviour on empty text.
   ------------------------------------------------------------------ -/

/-- Claim C9 is false as stated: `computeLinesDefault` resolves the
spacing add-on before its empty-text guard, so an unsupported
word-spacing unit throws even when the text is empty, instead of
returning the empty list of lines. -/
theorem C9_empty_counterexample :
    computeLinesDefault ⟨fun _ => 0, [], 100, some "5banana".toList, none⟩
        = .error (unsupportedMsg "banana".toList) ∧
      computeLinesDefault ⟨fun _ => 0, [], 100, some "5banana".toList, none⟩
        ≠ .ok [] := by
  constructor
  · decide
  · decide

/-- Claim C9 amended: for empty (or missing, coerced to empty) input text
`TextMetrics.width` returns `0` unconditionally, and both packing
policies return the empty list of lines provided the spacing add-on
resolution succeeds (it runs before the empty-text guard, so its
unsupported-unit error still propagates on empty text). -/
theorem C9_empty_degrades :
    (∀ (m sp : List Char → ℚ) (tt : TextTransform) (ml : Bool)
        (lf : List Char → List (List Char)) (ws : WsMode),
        TextMetrics.width m sp tt ml lf [] ws = 0) ∧
    (∀ (m : List Char → ℚ) (sp : List Char → Option ℚ) (mx : ℚ),
        computeLinesDefaultCore m sp mx [] = []) ∧
    (∀ (m : List Char → ℚ) (sp : List Char → Option ℚ) (mx : ℚ),
        computeLinesBreakAllCore m sp mx [] = []) ∧
    (∀ p : ComputeLinesParams, p.text = [] →
        (∃ r, addWordAndLetterSpacing p.wordSpacing p.letterSpacing = .ok r) →
        computeLinesDefault p = .ok [] ∧ computeLinesBreakAll p = .ok []) := by
  refine ⟨?_, ?_, ?_, ?_⟩
  · intro m sp tt ml lf ws
    have hnw : normalizeWhitespace [] ws = [] := by
      cases ws <;> rfl
    rw [TextMetrics.width, hnw]
    rfl
  · intro m sp mx
    rfl
  · intro m sp mx
    rfl
  · intro p hp ⟨r, hr⟩
    rw [computeLinesDefault, computeLinesBreakAll, hr, hp]
    exact ⟨rfl, rfl⟩

/-- Witness for the amended claim C9 at a concrete parameter record with
no spacing styles. -/
theorem C9_empty_degrades_witness :
    TextMetrics.width (fun _ => 0) (fun _ => 0) .other false (fun _ => []) [] .pre = 0 ∧
      computeLinesDefault ⟨fun _ => 0, [], 100, none, none⟩ = .ok [] ∧
      computeLinesBreakAll ⟨fun _ => 0, [], 100, none, none⟩ = .ok [] :=
  ⟨C9_empty_degrades.1 (fun _ => 0) (fun _ => 0) .other false (fun _ => []) .pre,
    (C9_empty_degrades.2.2.2 ⟨fun _ => 0, [], 100, none, none⟩ rfl ⟨_, rfl⟩).1,
    (C9_empty_degrades.2.2.2 ⟨fun _ => 0, [], 100, none, none⟩ rfl ⟨_, rfl⟩).2⟩

/- ------------------------------------------------------------------
   Claims C5 and C10: unit conversion.
   ------------------------------------------------------------------ -/

/-- Claim C5: `pxValue` converts `2rem` at base `10` to `20`; `px` is the
identity, `pt` divides by `96/72`, `em` and `rem` multiply by the resolved
base font size; any other extracted unit raises the unsupported-unit error
naming that unit, and the error propagates unrecovered through
`addWordAndLetterSpacing` (the caller on the measurement path). -/
theorem C5_pxValue_units :
    pxValue "2rem".toList (some 10) = .ok (some 20) ∧
    (∀ (s : List Char) (v : JsFloat) (b : Option ℤ),
        jsParseFloat s = some v →
        replaceFirstDrop (jsNumToString v) s = ['p', 'x'] →
        pxValue s b = .ok (some v.toRat)) ∧
    (∀ (s : List Char) (v : JsFloat) (b : Option ℤ),
        jsParseFloat s = some v →
        replaceFirstDrop (jsNumToString v) s = ['p', 't'] →
        pxValue s b = .ok (some (v.toRat / (96 / 72)))) ∧
    (∀ (s : List Char) (v : JsFloat) (b : Option ℤ),
        jsParseFloat s = some v →
        (replaceFirstDrop (jsNumToString v) s = ['r', 'e', 'm'] ∨
          replaceFirstDrop (jsNumToString v) s = ['e', 'm']) →
        pxValue s b = .ok (some (v.toRat * pxBase b))) ∧
    pxValue "2xyz".toList none = .error (unsupportedMsg ['x', 'y', 'z']) ∧
    (∀ (s : List Char) (b : Option ℤ),
        (∃ r, pxValue s b = .ok r) ∨
        pxValue s b = .error (unsupportedMsg (replaceFirstDrop
          (match jsParseFloat s with
            | some v => jsNumToString v
            | none => ['N', 'a', 'N']) s))) ∧
    (∀ (ws : List Char) (ls : Option (List Char)) (e : List Char),
        ws ≠ [] → ¬spacingBlacklist.contains ws →
        pxValue ws none = .error e →
        addWordAndLetterSpacing (some ws) ls = .error e) := by
  refine ⟨?_, ?_, ?_, ?_, by decide, ?_, ?_⟩
  · have hp : jsParseFloat "2rem".toList = some ⟨2, 0⟩ := by decide
    have hu : replaceFirstDrop (jsNumToString ⟨2, 0⟩) "2rem".toList
        = ['r', 'e', 'm'] := by decide
    simp only [pxValue, hp, hu, true_or, if_true]
    simp only [Option.map_some', JsFloat.toRat, pxBase, Except.ok.injEq,
      Option.some.injEq]
    norm_num
  · intro s v b hp hu
    simp only [pxValue, hp, hu, if_true]
    rfl
  · intro s v b hp hu
    simp only [pxValue, hp, hu, if_true]
    rfl
  · intro s v b hp hu
    rcases hu with hu | hu
    · simp only [pxValue, hp, hu, true_or, if_true]
      rfl
    · simp only [pxValue, hp, hu, or_true, if_true]
      rfl
  · intro s b
    simp only [pxValue]
    split
    · exact Or.inl ⟨_, rfl⟩
    · split
      · exact Or.inl ⟨_, rfl⟩
      · split
        · exact Or.inl ⟨_, rfl⟩
        · exact Or.inr rfl
  · intro ws ls e hne hb hpx
    simp only [addWordAndLetterSpacing]
    rw [if_pos ⟨hne, hb⟩, hpx]
    rfl

/-- Witness for claim C5 applying the `px` identity branch at the
canonical input `3px`. -/
theorem C5_pxValue_units_witness :
    jsParseFloat ['3', 'p', 'x'] = some ⟨3, 0⟩ ∧
      replaceFirstDrop (jsNumToString ⟨3, 0⟩) ['3', 'p', 'x'] = ['p', 'x'] ∧
      pxValue ['3', 'p', 'x'] none = .ok (some (JsFloat.toRat ⟨3, 0⟩)) :=
  ⟨by decide, by decide,
    C5_pxValue_units.2.1 ['3', 'p', 'x'] ⟨3, 0⟩ none (by decide) (by decide)⟩

/-- Claim C10: the unit is extracted by deleting the first occurrence of
the parsed number's canonical decimal string, so inputs with a supported
`px` suffix but a non-canonical numeric prefix (`.5px`, `0.50px`, `1e1px`)
throw the unsupported-unit error instead of converting, while the
canonical `2px` converts. -/
theorem C10_pxValue_noncanonical_prefix :
    pxValue ['.', '5', 'p', 'x'] none
        = .error (unsupportedMsg ['.', '5', 'p', 'x']) ∧
      pxValue ['0', '.', '5', '0', 'p', 'x'] none
        = .error (unsupportedMsg ['0', 'p', 'x']) ∧
      pxValue ['1', 'e', '1', 'p', 'x'] none
        = .error (unsupportedMsg ['1', 'e', '1', 'p', 'x']) ∧
      (['p', 'x'].isSuffixOf ['.', '5', 'p', 'x'] ∧
        ['p', 'x'].isSuffixOf ['0', '.', '5', '0', 'p', 'x'] ∧
        ['p', 'x'].isSuffixOf ['1', 'e', '1', 'p', 'x']) ∧
      pxValue ['2', 'p', 'x'] none = .ok (some 2) := by
  refine ⟨by decide, by decide, by decide, by decide, ?_⟩
  have hp : jsParseFloat ['2', 'p', 'x'] = some ⟨2, 0⟩ := by decide
  have hu : replaceFirstDrop (jsNumToString ⟨2, 0⟩) ['2', 'p', 'x']
      = ['p', 'x'] := by decide
  simp only [pxValue, hp, hu, if_true]
  simp only [Option.map_some', JsFloat.toRat, Except.ok.injEq, Option.some.injEq]
  norm_num
  rw [if_neg (by decide), if_neg (by decide)]

/- ------------------------------------------------------------------
   Claims C6 and C7: whitespace normalisation and idempotence.
   ------------------------------------------------------------------ -/

/-- The collapse of a nonempty list starts with the image of its first
character. -/
theorem collapseWS_cons (c : Char) (rest : List Char) :
    ∃ t, collapseWS (c :: rest) = (if jsWS c then ' ' else c) :: t := by
  induction rest generalizing c with
  | nil =>
    by_cases h : jsWS c <;> simp [collapseWS, h]
  | cons c2 r ih =>
    by_cases h : (jsWS c && jsWS c2) = true
    · obtain ⟨t, ht⟩ := ih c2
      rw [Bool.and_eq_true] at h
      refine ⟨t, ?_⟩
      simp only [collapseWS, Bool.and_eq_true, h, and_self, if_true, ht,
        h.1, h.2]
    · exact ⟨collapseWS (c2 :: r), by simp only [collapseWS, if_neg h]⟩

/-- Every whitespace character surviving the collapse is a plain space. -/
theorem wsOnlySpace_collapseWS (l : List Char) : wsOnlySpace (collapseWS l) := by
  induction l with
  | nil => intro c hc _; simp [collapseWS] at hc
  | cons c rest ih =>
    cases rest with
    | nil =>
      intro x hx hws
      by_cases h : jsWS c <;> simp [collapseWS, h] at hx
      · exact hx
      · rw [hx] at hws
        rw [hws] at h
        exact absurd rfl h
    | cons c2 r =>
      by_cases h : (jsWS c && jsWS c2) = true
      · simpa only [collapseWS, if_pos h] using ih
      · intro x hx hws
        simp only [collapseWS, if_neg h, List.mem_cons] at hx
        rcases hx with rfl | hx
        · by_cases hc : jsWS c
          · simp [hc]
          · simp only [hc, if_false] at hws ⊢
            exact absurd hws (by simpa using hc)
        · exact ih x hx hws

/-- The collapse never leaves two adjacent whitespace characters. -/
theorem noAdjWS_collapseWS (l : List Char) : noAdjWS (collapseWS l) := by
  induction l with
  | nil => simp [collapseWS, noAdjWS]
  | cons c rest ih =>
    cases rest with
    | nil =>
      by_cases h : jsWS c <;> simp [collapseWS, h, noAdjWS]
    | cons c2 r =>
      by_cases h : (jsWS c && jsWS c2) = true
      · simpa only [collapseWS, if_pos h] using ih
      · obtain ⟨t, ht⟩ := collapseWS_cons c2 r
        simp only [collapseWS, if_neg h]
        rw [ht]
        rw [ht] at ih
        refine List.chain'_cons.mpr ⟨?_, ih⟩
        intro ⟨h1, h2⟩
        rw [Bool.and_eq_true] at h
        by_cases hc : jsWS c
        · have hc2 : ¬jsWS c2 = true := fun hx => h ⟨hc, hx⟩
          rw [if_neg hc2] at h2
          exact hc2 h2
        · rw [if_neg hc] at h1
          exact hc h1

/-- Collapsing an already collapsed list is the identity. -/
theorem collapseWS_id (l : List Char) (h1 : wsOnlySpace l) (h2 : noAdjWS l) :
    collapseWS l = l := by
  induction l with
  | nil => rfl
  | cons c rest ih =>
    cases rest with
    | nil =>
      by_cases h : jsWS c
      · have hsp : c = ' ' := h1 c (by simp) h
        subst hsp
        decide
      · simp [collapseWS, h]
    | cons c2 r =>
      have hadj : ¬(jsWS c = true ∧ jsWS c2 = true) :=
        (List.chain'_cons.mp h2).1
      have h : ¬(jsWS c && jsWS c2) = true := by
        rw [Bool.and_eq_true]
        exact hadj
      simp only [collapseWS, if_neg h]
      have htail : collapseWS (c2 :: r) = c2 :: r :=
        ih (fun x hx => h1 x (List.mem_cons_of_mem c hx))
          (List.chain'_cons.mp h2).2
      rw [htail]
      by_cases hc : jsWS c
      · rw [if_pos hc, h1 c (by simp) hc]
      · rw [if_neg hc]

/-- The head of a `dropWhile` result does not satisfy the predicate. -/
theorem dropWhile_head_not (p : Char → Bool) (l : List Char) :
    ∀ c, (l.dropWhile p).head? = some c → p c = false := by
  induction l with
  | nil => intro c hc; simp at hc
  | cons x rest ih =>
    intro c hc
    by_cases h : p x
    · rw [List.dropWhile_cons_of_pos h] at hc
      exact ih c hc
    · rw [List.dropWhile_cons_of_neg h] at hc
      cases hc
      simpa using h

/-- Dropping a false-at-head predicate is the identity. -/
theorem dropWhile_eq_self (p : Char → Bool) (l : List Char)
    (h : ∀ c, l.head? = some c → p c = false) : l.dropWhile p = l := by
  cases l with
  | nil => rfl
  | cons c rest =>
    exact List.dropWhile_cons_of_neg (by simp [h c rfl])

/-- Trimming preserves the only-plain-space property. -/
theorem wsOnlySpace_jsTrim (l : List Char) (h : wsOnlySpace l) :
    wsOnlySpace (jsTrim l) := by
  intro c hc hws
  refine h c ?_ hws
  simp only [jsTrim, List.mem_reverse] at hc
  exact (List.dropWhile_suffix _).sublist.subset
    (by simpa using (List.dropWhile_suffix (p := jsWS)).sublist.subset hc)

/-- A list with no adjacent whitespace keeps the property reversed. -/
theorem noAdjWS_reverse (l : List Char) (h : noAdjWS l) : noAdjWS l.reverse := by
  rw [noAdjWS, List.chain'_reverse]
  exact h.imp fun a b hab ⟨h1, h2⟩ => hab ⟨h2, h1⟩

/-- Trimming preserves the no-adjacent-whitespace property. -/
theorem noAdjWS_jsTrim (l : List Char) (h : noAdjWS l) : noAdjWS (jsTrim l) := by
  refine noAdjWS_reverse _ ?_
  refine List.Chain'.suffix ?_ (List.dropWhile_suffix _)
  refine noAdjWS_reverse _ ?_
  exact List.Chain'.suffix h (List.dropWhile_suffix _)

/-- The first character of a trimmed list is not whitespace. -/
theorem jsTrim_head (l : List Char) :
    ∀ c, (jsTrim l).head? = some c → jsWS c = false := by
  intro c hc
  rw [jsTrim, List.head?_reverse] at hc
  have hne : (((l.dropWhile jsWS).reverse).dropWhile jsWS) ≠ [] := by
    intro h0
    rw [h0] at hc
    cases hc
  obtain ⟨t, ht⟩ := List.dropWhile_suffix (l := (l.dropWhile jsWS).reverse) (p := jsWS)
  have : ((l.dropWhile jsWS).reverse).getLast? = some c := by
    rw [← ht, List.getLast?_append_of_ne_nil _ hne, hc]
  rw [List.getLast?_reverse] at this
  exact dropWhile_head_not jsWS l c this

/-- The last character of a trimmed list is not whitespace. -/
theorem jsTrim_last (l : List Char) :
    ∀ c, (jsTrim l).getLast? = some c → jsWS c = false := by
  intro c hc
  rw [jsTrim, List.getLast?_reverse] at hc
  exact dropWhile_head_not jsWS (l.dropWhile jsWS).reverse c hc

/-- Trimming an edge-clean list is the identity. -/
theorem jsTrim_eq_self (l : List Char)
    (hh : ∀ c, l.head? = some c → jsWS c = false)
    (hl : ∀ c, l.getLast? = some c → jsWS c = false) : jsTrim l = l := by
  rw [jsTrim, dropWhile_eq_self jsWS l hh, dropWhile_eq_self jsWS l.reverse
    (by intro c hc; rw [List.head?_reverse] at hc; exact hl c hc),
    List.reverse_reverse]

/-- Trimming is idempotent. -/
theorem jsTrim_idem (l : List Char) : jsTrim (jsTrim l) = jsTrim l :=
  jsTrim_eq_self _ (jsTrim_head l) (jsTrim_last l)

/-- A list whose whitespace is all plain spaces has no carriage returns or
line feeds to replace. -/
theorem mapNL_eq_self (l : List Char) (h : wsOnlySpace l) : mapNL l = l := by
  induction l with
  | nil => rfl
  | cons c rest ih =>
    have hc : ¬(c = '\r' ∨ c = '\n') := by
      intro hor
      rcases hor with rfl | rfl
      · cases h '\r' (by simp) (by decide)
      · cases h '\n' (by simp) (by decide)
    simp only [mapNL, List.map_cons]
    rw [if_neg (by simpa using hc)]
    have := ih fun x hx => h x (List.mem_cons_of_mem c hx)
    simpa [mapNL] using this

/-- Replacing carriage returns and line feeds by spaces first does not
change the collapse. -/
theorem collapseWS_mapNL (l : List Char) : collapseWS (mapNL l) = collapseWS l := by
  have hg : ∀ c : Char, jsWS (if c = '\r' || c = '\n' then ' ' else c) = jsWS c := by
    intro c
    by_cases h : (c = '\r' || c = '\n') = true
    · rw [if_pos h]
      rcases Bool.or_eq_true_iff.mp h with h' | h' <;>
        rw [decide_eq_true_iff.mp h'] <;> decide
    · rw [if_neg h]
  induction l with
  | nil => rfl
  | cons c rest ih =>
    cases rest with
    | nil =>
      simp only [mapNL, List.map_cons, List.map_nil, collapseWS, hg c]
      by_cases h : jsWS c
      · rw [if_pos h, if_pos h]
      · rw [if_neg h, if_neg h]
        congr 1
        by_cases hcr : (c = '\r' || c = '\n') = true
        · exfalso
          rcases Bool.or_eq_true_iff.mp hcr with h' | h' <;>
            rw [decide_eq_true_iff.mp h'] at h <;> exact h (by decide)
        · rw [if_neg hcr]
    | cons c2 r =>
      simp only [mapNL, List.map_cons] at ih ⊢
      simp only [collapseWS, hg c, hg c2]
      by_cases h : (jsWS c && jsWS c2) = true
      · rw [if_pos h, if_pos h]
        exact ih
      · rw [if_neg h, if_neg h]
        rw [ih]
        congr 1
        by_cases hc : jsWS c
        · rw [if_pos hc, if_pos hc]
        · rw [if_neg hc, if_neg hc]
          by_cases hcr : (c = '\r' || c = '\n') = true
          · exfalso
            rcases Bool.or_eq_true_iff.mp hcr with h' | h' <;>
              rw [decide_eq_true_iff.mp h'] at hc <;> exact hc (by decide)
          · rw [if_neg hcr]

/-- Claim C6 is false as stated: under `pre-line` the newline of `a\nb` is
collapsed to a space rather than kept, so line semantics are not
preserved. -/
theorem C6_preLine_counterexample :
    normalizeWhitespace ['a', '\n', 'b'] .preLine = ['a', ' ', 'b'] ∧
      '\n' ∉ normalizeWhitespace ['a', '\n', 'b'] .preLine ∧
      normalizeWhitespace ['a', '\n', 'b'] .preLine ≠ ['a', '\n', 'b'] :=
  ⟨by decide, by decide, by decide⟩

/-- Claim C6 amended: `pre` and `pre-wrap` return the text unchanged; the
default policy collapses all whitespace (newlines included) to single
spaces and trims; and `pre-line` does exactly the same as the default
policy (newlines are collapsed, not kept).  The characterisation
conjunct states the collapsed shape of the default result: every
whitespace character is a plain space, never two adjacent, none at either
edge. -/
theorem C6_normalizeWhitespace_policies :
    (∀ t, normalizeWhitespace t .pre = t) ∧
    (∀ t, normalizeWhitespace t .preWrap = t) ∧
    (∀ t, normalizeWhitespace t .preLine = normalizeWhitespace t .other) ∧
    (∀ t, normalizeWhitespace t .other = jsTrim (collapseWS t)) ∧
    (∀ t, wsOnlySpace (normalizeWhitespace t .other) ∧
      noAdjWS (normalizeWhitespace t .other) ∧
      (∀ c, (normalizeWhitespace t .other).head? = some c → jsWS c = false) ∧
      (∀ c, (normalizeWhitespace t .other).getLast? = some c → jsWS c = false)) := by
  refine ⟨fun t => rfl, fun t => rfl, ?_, ?_, ?_⟩
  · intro t
    show jsTrim (collapseWS t) = jsTrim (collapseWS (mapNL t))
    rw [collapseWS_mapNL]
  · intro t
    show jsTrim (collapseWS (mapNL t)) = jsTrim (collapseWS t)
    rw [collapseWS_mapNL]
  · intro t
    refine ⟨wsOnlySpace_jsTrim _ (wsOnlySpace_collapseWS _),
      noAdjWS_jsTrim _ (noAdjWS_collapseWS _), jsTrim_head _, jsTrim_last _⟩

/-- Witness for the amended claim C6 at concrete inputs: the `pre-line`
and default policies agree on `a\nb`, and the head of a default result is
not whitespace. -/
theorem C6_normalizeWhitespace_policies_witness :
    normalizeWhitespace ['a', '\n', 'b'] .preLine
        = normalizeWhitespace ['a', '\n', 'b'] .other ∧
      jsWS 'a' = false :=
  ⟨C6_normalizeWhitespace_policies.2.2.1 ['a', '\n', 'b'],
    (C6_normalizeWhitespace_policies.2.2.2.2 ['a', ' ', 'b']).2.2.1 'a' (by decide)⟩

/-- Claim C7 is false as stated: `prepareText` is not idempotent.  On
`<br<br>>` the first pass rewrites the inner `<br>` to a line feed,
which then lets the `\s*` of the `<br\s*\/?>` pattern match on the second
pass. -/
theorem C7_prepareText_counterexample :
    prepareText ['<', 'b', 'r', '<', 'b', 'r', '>', '>'] = ['<', 'b', 'r', '\n', '>'] ∧
      prepareText ['<', 'b', 'r', '\n', '>'] = ['\n'] ∧
      prepareText (prepareText ['<', 'b', 'r', '<', 'b', 'r', '>', '>'])
        ≠ prepareText ['<', 'b', 'r', '<', 'b', 'r', '>', '>'] :=
  ⟨by decide, by decide, by decide⟩

/-- Claim C7 amended: `normalizeWhitespace` is idempotent in every policy,
but `prepareText` is not idempotent for all strings (the `<br>`
replacement can create a new match, as on `<br<br>>`). -/
theorem C7_normalize_idempotent_prepare_not :
    (∀ (t : List Char) (ws : WsMode),
        normalizeWhitespace (normalizeWhitespace t ws) ws = normalizeWhitespace t ws) ∧
      ¬(∀ t : List Char, prepareText (prepareText t) = prepareText t) := by
  constructor
  · intro t ws
    cases ws
    · rfl
    · rfl
    · show jsTrim (collapseWS (jsTrim (collapseWS t))) = jsTrim (collapseWS t)
      rw [collapseWS_id (jsTrim (collapseWS t))
          (wsOnlySpace_jsTrim _ (wsOnlySpace_collapseWS t))
          (noAdjWS_jsTrim _ (noAdjWS_collapseWS t)),
        jsTrim_idem]
    · show jsTrim (collapseWS (mapNL (jsTrim (collapseWS (mapNL t)))))
          = jsTrim (collapseWS (mapNL t))
      rw [mapNL_eq_self (jsTrim (collapseWS (mapNL t)))
          (wsOnlySpace_jsTrim _ (wsOnlySpace_collapseWS _)),
        collapseWS_id (jsTrim (collapseWS (mapNL t)))
          (wsOnlySpace_jsTrim _ (wsOnlySpace_collapseWS _))
          (noAdjWS_jsTrim _ (noAdjWS_collapseWS _)),
        jsTrim_idem]
  · intro h
    exact
      (by decide :
        prepareText (prepareText ['<', 'b', 'r', '<', 'b', 'r', '>', '>'])
          ≠ prepareText ['<', 'b', 'r', '<', 'b', 'r', '>', '>'])
      (h ['<', 'b', 'r', '<', 'b', 'r', '>', '>'])

/-- Witness for the amended claim C7: idempotence of normalisation at a
concrete input. -/
theorem C7_normalize_idempotent_witness :
    normalizeWhitespace (normalizeWhitespace [' ', 'a', '\n', 'b'] .other) .other
      = normalizeWhitespace [' ', 'a', '\n', 'b'] .other :=
  C7_normalize_idempotent_prepare_not.1 [' ', 'a', '\n', 'b'] .other

/- ------------------------------------------------------------------
   Claim C4: rounding modes of the width comparisons.
   ------------------------------------------------------------------ -/

theorem mathRound_fifty_two_fifths : mathRound (52 / 5) = 10 := by
  rw [mathRound, Int.floor_eq_iff]
  norm_num

theorem mathRound_twenty : mathRound 20 = 20 := by
  rw [mathRound, Int.floor_eq_iff]
  norm_num

/-- Claim C4 is false as stated: the secondary measurements of the B2
tie-break compare the raw, unrounded width with the budget.  With both
one-sided candidates measuring `10.4` against budget `10`, the source
forces the em dash onto its own line, while the variant the claim
describes (rounding the tie-break too, `10.4` rounding to `10`) attaches
it to the first line. -/
theorem C4_b2_rounding_counterexample :
    computeLinesDefaultCore mC4 (fun _ => some 0) 10 ['a', '—', 'b']
        = [['a'], ['—'], ['b']] ∧
      computeLinesDefaultB2RoundedCore mC4 (fun _ => some 0) 10 ['a', '—', 'b']
        = [['a', '—'], ['b']] ∧
      computeLinesDefaultCore mC4 (fun _ => some 0) 10 ['a', '—', 'b']
        ≠ computeLinesDefaultB2RoundedCore mC4 (fun _ => some 0) 10 ['a', '—', 'b'] := by
  have hscan : scanParts ['a', '—', 'b'] [] = ([['a'], ['b']], [⟨'—', .B2⟩]) := by
    decide
  have h1 : computeLinesDefaultCore mC4 (fun _ => some 0) 10 ['a', '—', 'b']
      = [['a'], ['—'], ['b']] := by
    simp only [computeLinesDefaultCore, hscan]
    norm_num +decide [packLoop, addW, mC4, roundW, jsLe, partIsBAIChar,
      mathRound_twenty, mathRound_fifty_two_fifths]
  have h2 : computeLinesDefaultB2RoundedCore mC4 (fun _ => some 0) 10 ['a', '—', 'b']
      = [['a', '—'], ['b']] := by
    simp only [computeLinesDefaultB2RoundedCore, hscan]
    norm_num +decide [packLoopB2Rounded, addW, mC4, roundW, jsLe, partIsBAIChar,
      mathRound_twenty, mathRound_fifty_two_fifths]
  refine ⟨h1, h2, ?_⟩
  rw [h1, h2]
  decide

/-- Congruence of the default packing loop in the measuring context: the
primary comparisons see widths only through `Math.round`, the B2
tie-break comparisons see the raw width against the budget. -/
theorem packLoop_measure_congr (m1 m2 : List Char → ℚ)
    (sp : List Char → Option ℚ) (mx : ℚ)
    (h1 : ∀ l, roundW (addW m1 sp l) = roundW (addW m2 sp l))
    (h2 : ∀ l, jsLe (addW m1 sp l) mx ↔ jsLe (addW m2 sp l) mx) :
    ∀ (pairs : List (Breakpoint × List Char)) (line prev : List Char),
      packLoop m1 sp mx line prev pairs = packLoop m2 sp mx line prev pairs := by
  intro pairs
  induction pairs with
  | nil => intro line prev; rfl
  | cons hd rest ih =>
    intro line prev
    obtain ⟨bp, part⟩ := hd
    obtain ⟨bc, bt⟩ := bp
    simp only [packLoop]
    by_cases hskip : partIsBAIChar prev = true ∧ partIsBAIChar part = true
    · rw [if_pos hskip, if_pos hskip, ih]
    · rw [if_neg hskip, if_neg hskip]
      by_cases hbk : ({ chr := bc, type := bt } : Breakpoint).type = .BK
      · rw [if_pos hbk, if_pos hbk, ih]
      · rw [if_neg hbk, if_neg hbk, h1]
        by_cases hfit : jsLe (roundW (addW m2 sp
            (line ++ (if ({ chr := bc, type := bt } : Breakpoint).type = .SHY
              then [] else [({ chr := bc, type := bt } : Breakpoint).chr]) ++ part))) mx
        · rw [if_pos hfit, if_pos hfit, ih]
        · rw [if_neg hfit, if_neg hfit]
          cases bt with
          | SHY => dsimp only; rw [ih]
          | BA => dsimp only; rw [ih]
          | BAI => dsimp only; rw [ih]
          | BB => dsimp only; rw [ih]
          | BK => exact absurd rfl hbk
          | B2 =>
            dsimp only
            simp only [if_neg (show ¬(BreakType.B2 = BreakType.SHY) by decide)]
            by_cases hb1 : jsLe (addW m2 sp (line ++ [bc])) mx
            · rw [if_pos ((h2 _).mpr hb1), if_pos hb1, ih]
            · rw [if_neg (fun hx => hb1 ((h2 _).mp hx)), if_neg hb1]
              by_cases hb2 : jsLe (addW m2 sp ([bc] ++ part)) mx
              · rw [if_pos ((h2 _).mpr hb2), if_pos hb2, ih]
              · rw [if_neg (fun hx => hb2 ((h2 _).mp hx)), if_neg hb2, ih]

/-- Congruence of the break-all loop in the measuring context: every
comparison sees widths only through `Math.ceil`. -/
theorem breakAllLoop_measure_congr (m1 m2 : List Char → ℚ)
    (sp : List Char → Option ℚ) (mx : ℚ) (fulltext : List Char)
    (h : ∀ l, ceilW (addW m1 sp l) = ceilW (addW m2 sp l)) :
    ∀ (rem : List Char) (index : ℕ) (line : List Char),
      breakAllLoop m1 sp mx fulltext rem index line
        = breakAllLoop m2 sp mx fulltext rem index line := by
  intro rem
  induction rem with
  | nil => intro index line; rfl
  | cons c rest ih =>
    intro index line
    simp only [breakAllLoop]
    by_cases hbk : checkBreak c = some .BK
    · rw [if_pos hbk, if_pos hbk, ih]
    · rw [if_neg hbk, if_neg hbk]
      by_cases hskip : baiChars.contains c = true ∧ (line = [] ∨ lastIsBAI line = true)
      · rw [if_pos hskip, if_pos hskip, ih]
      · rw [if_neg hskip, if_neg hskip]
        simp only [h]
        by_cases hshy : checkBreak c = some .SHY
        · simp only [if_pos hshy]
          by_cases hsplit : jsGt (ceilW (addW m2 sp (line ++ [c] ++
              (match fulltext.get? (index + 1) with
                | some nc => [nc]
                | none => [])))) mx ∧ line ≠ []
          · rw [if_pos hsplit, if_pos hsplit, hshy]
            rw [ih]
          · rw [if_neg hsplit, if_neg hsplit]
            by_cases hshyc : c ≠ '­'
            · rw [if_pos hshyc, if_pos hshyc, ih]
            · rw [if_neg hshyc, if_neg hshyc, ih]
        · simp only [if_neg hshy]
          by_cases hsplit : jsGt (ceilW (addW m2 sp (line ++ [c]))) mx ∧ line ≠ []
          · rw [if_pos hsplit, if_pos hsplit]
            cases hcb : checkBreak c with
            | none =>
              dsimp only
              rw [ih]
            | some bt => cases bt <;> (dsimp only; rw [ih])
          · rw [if_neg hsplit, if_neg hsplit]
            by_cases hshyc : c ≠ '­'
            · rw [if_pos hshyc, if_pos hshyc, ih]
            · rw [if_neg hshyc, if_neg hshyc, ih]

/-- Claim C4 amended: during line packing the default policy's output
depends on the measured widths only through their `Math.round` in the
primary comparisons against maxWidthPx together with the raw, unrounded
comparison used by the B2 tie-break's secondary measurements, and the
break-all policy's output depends on them only through `Math.ceil`. -/
theorem C4_width_rounding :
    (∀ (m1 m2 : List Char → ℚ) (sp : List Char → Option ℚ) (mx : ℚ)
        (text : List Char),
        (∀ l, roundW (addW m1 sp l) = roundW (addW m2 sp l)) →
        (∀ l, jsLe (addW m1 sp l) mx ↔ jsLe (addW m2 sp l) mx) →
        computeLinesDefaultCore m1 sp mx text
          = computeLinesDefaultCore m2 sp mx text) ∧
    (∀ (m1 m2 : List Char → ℚ) (sp : List Char → Option ℚ) (mx : ℚ)
        (text : List Char),
        (∀ l, ceilW (addW m1 sp l) = ceilW (addW m2 sp l)) →
        computeLinesBreakAllCore m1 sp mx text
          = computeLinesBreakAllCore m2 sp mx text) := by
  constructor
  · intro m1 m2 sp mx text h1 h2
    simp only [computeLinesDefaultCore]
    by_cases ht : text = []
    · rw [if_pos ht, if_pos ht]
    · rw [if_neg ht, if_neg ht]
      rcases hp : scanParts text [] with ⟨parts, bps⟩
      cases parts with
      | nil => rfl
      | cons p0 rest =>
        exact packLoop_measure_congr m1 m2 sp mx h1 h2 (bps.zip rest) p0 p0
  · intro m1 m2 sp mx text h
    simp only [computeLinesBreakAllCore]
    by_cases ht : text = []
    · rw [if_pos ht, if_pos ht]
    · rw [if_neg ht, if_neg ht]
      exact breakAllLoop_measure_congr m1 m2 sp mx text h text 0 []

/-- Witness for the amended claim C4: two measuring contexts whose widths
differ by a quarter pixel but round and ceil alike produce identical
lines. -/
theorem C4_width_rounding_witness :
    computeLinesDefaultCore (fun _ => 10) (fun _ => some 0) 15 ['a', ' ', 'b']
        = computeLinesDefaultCore (fun _ => 39 / 4) (fun _ => some 0) 15 ['a', ' ', 'b'] ∧
      computeLinesBreakAllCore (fun _ => 10) (fun _ => some 0) 15 ['a', ' ', 'b']
        = computeLinesBreakAllCore (fun _ => 39 / 4) (fun _ => some 0) 15 ['a', ' ', 'b'] := by
  have hra : mathRound 10 = 10 := by
    rw [mathRound, Int.floor_eq_iff]
    norm_num
  have hrb : mathRound (39 / 4) = 10 := by
    rw [mathRound, Int.floor_eq_iff]
    norm_num
  have hca : mathCeil 10 = 10 := by
    rw [mathCeil, Int.ceil_eq_iff]
    norm_num
  have hcb : mathCeil (39 / 4) = 10 := by
    rw [mathCeil, Int.ceil_eq_iff]
    norm_num
  exact ⟨C4_width_rounding.1 _ _ _ _ _
      (fun l => by simp [roundW, addW, hra, hrb])
      (fun l => by norm_num [jsLe, addW]),
    C4_width_rounding.2 _ _ _ _ _ (fun l => by simp [ceilW, addW, hca, hcb])⟩

/- ------------------------------------------------------------------
   Claim C3: the round-trip of the packers, up to the canonical erasure.
   ------------------------------------------------------------------ -/

theorem joinLines_nil : joinLines [] = [] := rfl

theorem joinLines_cons (l : List Char) (ls : List (List Char)) :
    joinLines (l :: ls) = l ++ joinLines ls := rfl

theorem canon_append (a b : List Char) : canon (a ++ b) = canon a ++ canon b := by
  simp [canon]

/-- Characters of the BAI table are never classified as `none`. -/
theorem checkBreak_ne_none_of_bai (c : Char) (h : c ∈ baiChars) :
    checkBreak c ≠ none := by
  rw [checkBreak]
  by_cases h2 : c ∈ b2Chars
  · simp [h2]
  · simp [h2, h]

/-- A single-character part of the BAI string set. -/
theorem partIsBAIChar_eq (p : List Char) (h : partIsBAIChar p = true) :
    ∃ c, p = [c] ∧ baiChars.contains c = true := by
  match p with
  | [] => simp [partIsBAIChar] at h
  | [c] => exact ⟨c, rfl, by simpa [partIsBAIChar] using h⟩
  | _ :: _ :: _ => simp [partIsBAIChar] at h

/-- The canonical erasure drops a breakpoint character of category BAI,
BK or SHY. -/
theorem canon_drop_break (c : Char) (t : BreakType)
    (h : checkBreak c = some t) (ht : t = .BAI ∨ t = .BK ∨ t = .SHY) :
    canon [c] = [] := by
  have hmem : c ∈ baiChars ∨ c ∈ bkChars ∨ c = '­' := by
    rw [checkBreak] at h
    by_cases h1 : c ∈ b2Chars
    · simp [h1] at h
      rcases ht with rfl | rfl | rfl <;> cases h
    · by_cases h2 : c ∈ baiChars
      · exact Or.inl h2
      · by_cases h3 : c ∈ shyChars
        · exact Or.inr (Or.inr (by simpa [shyChars] using h3))
        · by_cases h4 : c ∈ baChars
          · simp [h1, h2, h3, h4] at h
            rcases ht with rfl | rfl | rfl <;> cases h
          · by_cases h5 : c ∈ bbChars
            · simp [h1, h2, h3, h4, h5] at h
              rcases ht with rfl | rfl | rfl <;> cases h
            · by_cases h6 : c ∈ bkChars
              · exact Or.inr (Or.inl h6)
              · simp [h1, h2, h3, h4, h5, h6] at h
  rcases hmem with hm | hm | hm
  · simp [canon, droppable, hm]
  · simp [canon, droppable, hm]
  · subst hm
    decide

/-- The hyphen rendering of a split soft hyphen is erased. -/
theorem canon_dash : canon ['-'] = [] := by decide

/-- Lengths of the scan output: at most one more part than breakpoints,
and at least as many parts. -/
theorem scanParts_len (text : List Char) : ∀ part : List Char,
    (scanParts text part).2.length ≤ (scanParts text part).1.length ∧
      (scanParts text part).1.length ≤ (scanParts text part).2.length + 1 := by
  induction text with
  | nil =>
    intro part
    by_cases h : part = [] <;> simp [scanParts, h]
  | cons c rest ih =>
    intro part
    rcases hps : scanParts rest [] with ⟨ps, bs⟩
    have hlen := ih []
    rw [hps] at hlen
    cases hcb : checkBreak c with
    | none => simpa [scanParts, hcb] using ih (part ++ [c])
    | some t =>
      cases t with
      | BAI =>
        by_cases hp : part = []
        · simpa [scanParts, hcb, hp, hps] using hlen
        · simp only [scanParts, hcb, hps, if_neg hp, List.length_cons]
          simp only [List.length_cons] at hlen ⊢
          constructor
          · omega
          · omega
      | B2 =>
        simp only [scanParts, hcb, hps, List.length_cons] at hlen ⊢
        exact ⟨by omega, by omega⟩
      | SHY =>
        simp only [scanParts, hcb, hps, List.length_cons] at hlen ⊢
        exact ⟨by omega, by omega⟩
      | BA =>
        simp only [scanParts, hcb, hps, List.length_cons] at hlen ⊢
        exact ⟨by omega, by omega⟩
      | BB =>
        simp only [scanParts, hcb, hps, List.length_cons] at hlen ⊢
        exact ⟨by omega, by omega⟩
      | BK =>
        simp only [scanParts, hcb, hps, List.length_cons] at hlen ⊢
        exact ⟨by omega, by omega⟩

/-- Every character of every scanned part is non-breaking, provided the
seed part is. -/
theorem scanParts_nobreak (text : List Char) : ∀ part : List Char,
    (∀ c ∈ part, checkBreak c = none) →
    ∀ p ∈ (scanParts text part).1, ∀ c ∈ p, checkBreak c = none := by
  induction text with
  | nil =>
    intro part hpart p hp
    by_cases h : part = [] <;> simp [scanParts, h] at hp
    · subst hp
      exact hpart
  | cons c rest ih =>
    intro part hpart p hp
    rcases hps : scanParts rest [] with ⟨ps, bs⟩
    have ihtail := ih [] (by simp)
    rw [hps] at ihtail
    cases hcb : checkBreak c with
    | none =>
      rw [scanParts, hcb] at hp
      refine ih (part ++ [c]) ?_ p hp
      intro x hx
      rcases List.mem_append.mp hx with hx | hx
      · exact hpart x hx
      · rw [List.mem_singleton.mp hx]
        exact hcb
    | some t =>
      cases t with
      | BAI =>
        by_cases hpe : part = []
        · rw [scanParts, hcb, if_pos hpe] at hp
          exact ih [] (by simp) p hp
        · rw [scanParts, hcb] at hp
          simp only [if_neg hpe, hps, List.mem_cons] at hp
          rcases hp with rfl | hp
          · exact hpart
          · exact ihtail p hp
      | B2 =>
        rw [scanParts, hcb] at hp
        simp only [hps, List.mem_cons] at hp
        rcases hp with rfl | hp
        · exact hpart
        · exact ihtail p hp
      | SHY =>
        rw [scanParts, hcb] at hp
        simp only [hps, List.mem_cons] at hp
        rcases hp with rfl | hp
        · exact hpart
        · exact ihtail p hp
      | BA =>
        rw [scanParts, hcb] at hp
        simp only [hps, List.mem_cons] at hp
        rcases hp with rfl | hp
        · exact hpart
        · exact ihtail p hp
      | BB =>
        rw [scanParts, hcb] at hp
        simp only [hps, List.mem_cons] at hp
        rcases hp with rfl | hp
        · exact hpart
        · exact ihtail p hp
      | BK =>
        rw [scanParts, hcb] at hp
        simp only [hps, List.mem_cons] at hp
        rcases hp with rfl | hp
        · exact hpart
        · exact ihtail p hp

/-- Every scanned breakpoint records the category of its character. -/
theorem scanParts_typed (text : List Char) : ∀ part : List Char,
    ∀ b ∈ (scanParts text part).2, checkBreak b.chr = some b.type := by
  induction text with
  | nil =>
    intro part b hb
    by_cases h : part = [] <;> simp [scanParts, h] at hb
  | cons c rest ih =>
    intro part b hb
    rcases hps : scanParts rest [] with ⟨ps, bs⟩
    have ihtail := ih []
    rw [hps] at ihtail
    cases hcb : checkBreak c with
    | none =>
      rw [scanParts, hcb] at hb
      exact ih (part ++ [c]) b hb
    | some t =>
      cases t with
      | BAI =>
        by_cases hpe : part = []
        · rw [scanParts, hcb, if_pos hpe] at hb
          exact ih [] b hb
        · rw [scanParts, hcb] at hb
          simp only [if_neg hpe, hps, List.mem_cons] at hb
          rcases hb with rfl | hb
          · exact hcb
          · exact ihtail b hb
      | B2 =>
        rw [scanParts, hcb] at hb
        simp only [hps, List.mem_cons] at hb
        rcases hb with rfl | hb
        · exact hcb
        · exact ihtail b hb
      | SHY =>
        rw [scanParts, hcb] at hb
        simp only [hps, List.mem_cons] at hb
        rcases hb with rfl | hb
        · exact hcb
        · exact ihtail b hb
      | BA =>
        rw [scanParts, hcb] at hb
        simp only [hps, List.mem_cons] at hb
        rcases hb with rfl | hb
        · exact hcb
        · exact ihtail b hb
      | BB =>
        rw [scanParts, hcb] at hb
        simp only [hps, List.mem_cons] at hb
        rcases hb with rfl | hb
        · exact hcb
        · exact ihtail b hb
      | BK =>
        rw [scanParts, hcb] at hb
        simp only [hps, List.mem_cons] at hb
        rcases hb with rfl | hb
        · exact hcb
        · exact ihtail b hb

/-- The scan loses exactly the skipped collapsible whitespace: up to the
canonical erasure, the interleaving of parts and breakpoint characters is
the original text. -/
theorem canon_scanParts (text : List Char) : ∀ part : List Char,
    canon (part ++ text)
      = canon (interleave (scanParts text part).1 (scanParts text part).2) := by
  induction text with
  | nil =>
    intro part
    by_cases h : part = [] <;> simp [scanParts, h, interleave]
  | cons c rest ih =>
    intro part
    rcases hps : scanParts rest [] with ⟨ps, bs⟩
    have ihtail := ih []
    rw [hps] at ihtail
    simp only [List.nil_append] at ihtail
    have hsplit : canon (part ++ c :: rest) = canon part ++ canon [c] ++ canon rest := by
      rw [show part ++ c :: rest = part ++ [c] ++ rest by simp]
      rw [canon_append, canon_append]
    cases hcb : checkBreak c with
    | none =>
      rw [scanParts, hcb]
      rw [show part ++ c :: rest = (part ++ [c]) ++ rest by simp]
      exact ih (part ++ [c])
    | some t =>
      cases t with
      | BAI =>
        by_cases hpe : part = []
        · rw [scanParts, hcb, if_pos hpe, hpe]
          have hdrop : canon [c] = [] := canon_drop_break c .BAI hcb (by simp)
          simp only [List.nil_append]
          rw [show (c :: rest : List Char) = [c] ++ rest from rfl, canon_append,
            hdrop, List.nil_append, hps]
          exact ihtail
        · rw [scanParts, hcb]
          simp only [if_neg hpe, hps, interleave]
          rw [hsplit, show (Breakpoint.mk c .BAI).chr :: interleave ps bs
              = [c] ++ interleave ps bs from rfl,
            canon_append, canon_append, ihtail, List.append_assoc]
      | B2 =>
        rw [scanParts, hcb]
        simp only [hps, interleave]
        rw [hsplit, show (Breakpoint.mk c .B2).chr :: interleave ps bs
            = [c] ++ interleave ps bs from rfl,
          canon_append, canon_append, ihtail, List.append_assoc]
      | SHY =>
        rw [scanParts, hcb]
        simp only [hps, interleave]
        rw [hsplit, show (Breakpoint.mk c .SHY).chr :: interleave ps bs
            = [c] ++ interleave ps bs from rfl,
          canon_append, canon_append, ihtail, List.append_assoc]
      | BA =>
        rw [scanParts, hcb]
        simp only [hps, interleave]
        rw [hsplit, show (Breakpoint.mk c .BA).chr :: interleave ps bs
            = [c] ++ interleave ps bs from rfl,
          canon_append, canon_append, ihtail, List.append_assoc]
      | BB =>
        rw [scanParts, hcb]
        simp only [hps, interleave]
        rw [hsplit, show (Breakpoint.mk c .BB).chr :: interleave ps bs
            = [c] ++ interleave ps bs from rfl,
          canon_append, canon_append, ihtail, List.append_assoc]
      | BK =>
        rw [scanParts, hcb]
        simp only [hps, interleave]
        rw [hsplit, show (Breakpoint.mk c .BK).chr :: interleave ps bs
            = [c] ++ interleave ps bs from rfl,
          canon_append, canon_append, ihtail, List.append_assoc]

/-- Relation between the scanned interleaving and what the packing loop
consumes: the zip of breakpoints with the tail parts covers everything
except, when there is one more breakpoint than tail parts, the final
breakpoint character. -/
theorem canon_interleave_zip : ∀ (rest : List (List Char)) (bs : List Breakpoint)
    (p0 : List Char), rest.length ≤ bs.length → bs.length ≤ rest.length + 1 →
    canon (interleave (p0 :: rest) bs)
      = canon (p0 ++ concatPairs (bs.zip rest))
        ++ (match bs.drop rest.length with
            | [] => []
            | b :: _ => canon [b.chr]) := by
  intro rest
  induction rest with
  | nil =>
    intro bs p0 h1 h2
    cases bs with
    | nil => simp [interleave, concatPairs]
    | cons b bs' =>
      cases bs' with
      | nil =>
        simp only [interleave, List.zip_nil_right, concatPairs, List.length_nil,
          List.drop_zero]
        rw [canon_append, canon_append]
        simp [canon]
      | cons b2 bs'' => simp at h2
  | cons p1 rest' ih =>
    intro bs p0 h1 h2
    cases bs with
    | nil => simp at h1
    | cons b bs' =>
      simp only [interleave, List.zip_cons_cons, concatPairs, List.length_cons,
        List.drop_succ_cons]
      rw [List.append_cons p0 b.chr (interleave (p1 :: rest') bs'),
        List.append_cons p0 b.chr (p1 ++ concatPairs (List.zipWith Prod.mk bs' rest'))]
      rw [canon_append (p0 ++ [b.chr]) (interleave (p1 :: rest') bs'),
        canon_append (p0 ++ [b.chr]) (p1 ++ concatPairs (List.zipWith Prod.mk bs' rest'))]
      rw [ih bs' p1 (by simpa using h1) (by simpa using h2)]
      rw [List.append_assoc]
      rfl

theorem canon_cons_append (line : List Char) (c : Char) (x : List Char) :
    canon (line ++ c :: x) = canon line ++ canon [c] ++ canon x := by
  rw [List.append_cons, canon_append, canon_append]

theorem canon_nil : canon [] = [] := rfl

theorem canon_cons (c : Char) (l : List Char) :
    canon (c :: l) = canonC c ++ canon l := by
  simp only [canon, canonC, List.filter_cons]
  split <;> simp

theorem canonC_dash : canonC '-' = [] := by decide

/-- Round trip of the packing loop: up to the canonical erasure, the
concatenation of the produced lines is the line so far followed by the
consumed breakpoint characters and parts. -/
theorem packLoop_canon (m : List Char → ℚ) (sp : List Char → Option ℚ) (mx : ℚ) :
    ∀ (pairs : List (Breakpoint × List Char)) (line prev : List Char),
      (∀ pr ∈ pairs, ∀ c ∈ pr.2, checkBreak c = none) →
      (∀ pr ∈ pairs, checkBreak pr.1.chr = some pr.1.type) →
      canon (line ++ concatPairs pairs)
        = canon (joinLines (packLoop m sp mx line prev pairs)) := by
  intro pairs
  induction pairs with
  | nil =>
    intro line prev _ _
    by_cases h : line = [] <;> simp [packLoop, concatPairs, joinLines, h]
  | cons hd rest ih =>
    intro line prev hparts htypes
    obtain ⟨bp, part⟩ := hd
    obtain ⟨bc, bt⟩ := bp
    have hpart : ∀ c ∈ part, checkBreak c = none := by
      intro c hc
      exact hparts (⟨bc, bt⟩, part) (by simp) c hc
    have hbp : checkBreak bc = some bt := htypes (⟨bc, bt⟩, part) (by simp)
    have ih' : ∀ line prev : List Char,
        canon (line ++ concatPairs rest)
          = canon (joinLines (packLoop m sp mx line prev rest)) := by
      intro l p
      exact ih l p (fun pr hpr => hparts pr (List.mem_cons_of_mem _ hpr))
        (fun pr hpr => htypes pr (List.mem_cons_of_mem _ hpr))
    have hskip : ¬(partIsBAIChar prev = true ∧ partIsBAIChar part = true) := by
      rintro ⟨_, hp2⟩
      obtain ⟨c, rfl, hc⟩ := partIsBAIChar_eq part hp2
      exact checkBreak_ne_none_of_bai c (by simpa using hc) (hpart c (by simp))
    simp only [packLoop, concatPairs]
    rw [if_neg hskip]
    cases bt with
    | BK =>
      rw [if_pos rfl]
      have hdrop : canonC bc = [] := canon_drop_break bc .BK hbp (by simp)
      simp only [joinLines_cons, canon_append, canon_cons, canon_nil, hdrop,
        List.append_assoc, List.append_nil, List.nil_append]
      rw [← ih']
      simp only [canon_append, List.append_assoc]
    | SHY =>
      rw [if_neg (show ¬(BreakType.SHY = BreakType.BK) by decide), if_pos rfl]
      have hdrop : canonC bc = [] := canon_drop_break bc .SHY hbp (by simp)
      split
      · simp only [joinLines_cons, canon_append, canon_cons, canon_nil, hdrop,
          List.append_assoc, List.append_nil, List.nil_append]
        rw [← ih']
        simp only [canon_append, List.append_assoc]
      · dsimp only
        simp only [joinLines_cons, canon_append, canon_cons, canon_nil, hdrop,
          canonC_dash, List.append_assoc, List.append_nil, List.nil_append]
        rw [← ih']
        simp only [canon_append, List.append_assoc]
    | BA =>
      rw [if_neg (show ¬(BreakType.BA = BreakType.BK) by decide),
        if_neg (show ¬(BreakType.BA = BreakType.SHY) by decide)]
      split
      · simp only [joinLines_cons, canon_append, canon_cons, canon_nil,
          List.append_assoc, List.append_nil, List.nil_append]
        rw [← ih']
        simp only [canon_append, canon_cons, canon_nil, List.append_assoc,
          List.append_nil, List.nil_append]
      · dsimp only
        simp only [joinLines_cons, canon_append, canon_cons, canon_nil,
          List.append_assoc, List.append_nil, List.nil_append]
        rw [← ih']
        simp only [canon_append, List.append_assoc]
    | BAI =>
      rw [if_neg (show ¬(BreakType.BAI = BreakType.BK) by decide),
        if_neg (show ¬(BreakType.BAI = BreakType.SHY) by decide)]
      have hdrop : canonC bc = [] := canon_drop_break bc .BAI hbp (by simp)
      split
      · simp only [joinLines_cons, canon_append, canon_cons, canon_nil, hdrop,
          List.append_assoc, List.append_nil, List.nil_append]
        rw [← ih']
        simp only [canon_append, canon_cons, canon_nil, hdrop,
          List.append_assoc, List.append_nil, List.nil_append]
      · dsimp only
        simp only [joinLines_cons, canon_append, canon_cons, canon_nil, hdrop,
          List.append_assoc, List.append_nil, List.nil_append]
        rw [← ih']
        simp only [canon_append, List.append_assoc]
    | BB =>
      rw [if_neg (show ¬(BreakType.BB = BreakType.BK) by decide),
        if_neg (show ¬(BreakType.BB = BreakType.SHY) by decide)]
      split
      · simp only [joinLines_cons, canon_append, canon_cons, canon_nil,
          List.append_assoc, List.append_nil, List.nil_append]
        rw [← ih']
        simp only [canon_append, canon_cons, canon_nil, List.append_assoc,
          List.append_nil, List.nil_append]
      · dsimp only
        simp only [joinLines_cons, canon_append, canon_cons, canon_nil,
          List.append_assoc, List.append_nil, List.nil_append]
        rw [← ih']
        simp only [canon_append, canon_cons, canon_nil, List.append_assoc,
          List.append_nil, List.nil_append]
    | B2 =>
      rw [if_neg (show ¬(BreakType.B2 = BreakType.BK) by decide),
        if_neg (show ¬(BreakType.B2 = BreakType.SHY) by decide)]
      split
      · simp only [joinLines_cons, canon_append, canon_cons, canon_nil,
          List.append_assoc, List.append_nil, List.nil_append]
        rw [← ih']
        simp only [canon_append, canon_cons, canon_nil, List.append_assoc,
          List.append_nil, List.nil_append]
      · dsimp only
        split
        · simp only [joinLines_cons, canon_append, canon_cons, canon_nil,
            List.append_assoc, List.append_nil, List.nil_append]
          rw [← ih']
          simp only [canon_append, List.append_assoc]
        · split
          · simp only [joinLines_cons, canon_append, canon_cons, canon_nil,
              List.append_assoc, List.append_nil, List.nil_append]
            rw [← ih']
            simp only [canon_append, canon_cons, canon_nil, List.append_assoc,
              List.append_nil, List.nil_append]
          · simp only [joinLines_cons, canon_append, canon_cons, canon_nil,
              List.append_assoc, List.append_nil, List.nil_append]
            rw [← ih']
            simp only [canon_append, List.append_assoc]

theorem canonC_of_bai (c : Char) (h : baiChars.contains c = true) :
    canonC c = [] := by
  have hc : c ∈ baiChars := by simpa using h
  simp [canonC, canon, droppable, hc]

/-- Round trip of the character-granular break-all loop: up to the
canonical erasure, the concatenation of the produced lines is the open
line followed by the remaining characters.  No side condition is needed:
the loop only drops collapsible whitespace, mandatory breaks and soft
hyphens, and only inserts the rendered hyphen. -/
theorem breakAllLoop_canon (m : List Char → ℚ) (sp : List Char → Option ℚ)
    (mx : ℚ) (fulltext : List Char) :
    ∀ (rem : List Char) (index : ℕ) (line : List Char),
      canon (line ++ rem)
        = canon (joinLines (breakAllLoop m sp mx fulltext rem index line)) := by
  intro rem
  induction rem with
  | nil =>
    intro index line
    by_cases h : line = [] <;> simp [breakAllLoop, joinLines, h]
  | cons c rest ih =>
    intro index line
    simp only [breakAllLoop]
    split
    · rename_i hbk
      have hdrop : canonC c = [] := canon_drop_break c .BK hbk (by simp)
      simp only [joinLines_cons, canon_append, canon_cons, canon_nil, hdrop,
        List.append_assoc, List.append_nil, List.nil_append]
      rw [← ih]
      simp only [canon_nil, List.nil_append]
    · split
      · rename_i hsk
        have hdrop : canonC c = [] := canonC_of_bai c hsk.1
        simp only [canon_append, canon_cons, hdrop, List.append_assoc,
          List.nil_append]
        rw [← ih]
        simp only [canon_append]
      · by_cases hshy : checkBreak c = some .SHY
        · rw [hshy]
          rw [if_pos rfl]
          have hdrop : canonC c = [] := canon_drop_break c .SHY hshy (by simp)
          dsimp only
          split
          · simp only [joinLines_cons, canon_append, canon_cons, canon_nil,
              hdrop, canonC_dash, List.append_assoc, List.append_nil,
              List.nil_append]
            rw [← ih]
            simp only [canon_nil, List.nil_append]
          · split
            · rw [← ih]
              simp only [canon_append, canon_cons, canon_nil, hdrop,
                List.append_assoc, List.append_nil, List.nil_append]
            · rw [← ih]
              simp only [canon_append, canon_cons, canon_nil, hdrop,
                List.nil_append]
        · rw [if_neg hshy]
          split
          · split
            · rename_i heq
              exact absurd heq hshy
            · simp only [joinLines_cons, canon_append, canon_cons, canon_nil,
                List.append_assoc, List.append_nil, List.nil_append]
              rw [← ih]
              simp only [canon_nil, List.nil_append]
            · rename_i heq
              have hdrop : canonC c = [] := canon_drop_break c .BAI heq (by simp)
              simp only [joinLines_cons, canon_append, canon_cons, canon_nil,
                hdrop, List.append_assoc, List.append_nil, List.nil_append]
              rw [← ih]
              simp only [canon_nil, List.nil_append]
            · simp only [joinLines_cons, canon_append, canon_cons, canon_nil,
                List.append_assoc, List.append_nil, List.nil_append]
              rw [← ih]
              simp only [canon_append, canon_cons, canon_nil,
                List.append_assoc, List.append_nil, List.nil_append]
          · split
            · rw [← ih]
              simp only [canon_append, canon_cons, canon_nil,
                List.append_assoc, List.append_nil, List.nil_append]
            · rename_i hc
              have hc' : c = '­' := not_not.mp hc
              subst hc'
              rw [← ih]
              have hdrop : canonC '­' = [] := by decide
              simp only [canon_append, canon_cons, hdrop, List.nil_append]

/-- C3, refuted: with text `a—` the scan pushes no part after the final
em dash (`if (part) parts.push(part)` skips the empty trailing part), so
the packing loop bound `i < parts.length` never reads the last
breakpoint and its character is lost: the default policy returns `['a']`
although the em dash is not a character the erasure may drop. -/
theorem C3_roundtrip_counterexample :
    ¬ claimC3 (fun _ => 0) (fun _ => some 0) 100 ['a', '—'] := by
  intro h
  exact absurd h.1 (by decide)

/-- C3, amended: the break-all policy reconstructs the text exactly up to
the canonical erasure; the default policy reconstructs it up to the
canonical erasure and the possible loss of one trailing breakpoint
character (the scan drops an empty trailing part, so the packing loop
never reads the final breakpoint). -/
theorem C3_roundtrip_amended (m : List Char → ℚ) (sp : List Char → Option ℚ)
    (mx : ℚ) (text : List Char) :
    canon (joinLines (computeLinesBreakAllCore m sp mx text)) = canon text ∧
    ∃ t : List Char,
      canon text
          = canon (joinLines (computeLinesDefaultCore m sp mx text)) ++ t ∧
        t.length ≤ 1 ∧ ∀ c ∈ t, checkBreak c ≠ none := by
  constructor
  · by_cases htext : text = []
    · subst htext
      simp [computeLinesBreakAllCore, joinLines]
    · rw [computeLinesBreakAllCore, if_neg htext]
      rw [← breakAllLoop_canon m sp mx text text 0 []]
      simp
  · by_cases htext : text = []
    · subst htext
      exact ⟨[], by simp [computeLinesDefaultCore, joinLines], by simp, by simp⟩
    · rcases hps : scanParts text [] with ⟨ps, bs⟩
      have hlen := scanParts_len text []
      rw [hps] at hlen
      have hnb := scanParts_nobreak text [] (by simp)
      rw [hps] at hnb
      have hty := scanParts_typed text []
      rw [hps] at hty
      have hcs := canon_scanParts text []
      rw [hps] at hcs
      simp only [List.nil_append] at hcs
      cases ps with
      | nil =>
        have hcanon : canon text = [] := by
          rw [hcs]
          simp [interleave, canon]
        refine ⟨[], ?_, by simp, by simp⟩
        rw [computeLinesDefaultCore, if_neg htext, hps, hcanon]
        simp [joinLines, canon]
      | cons p0 rest =>
        have h1 : rest.length ≤ bs.length := by
          have := hlen.2
          simp only [List.length_cons] at this
          omega
        have h2 : bs.length ≤ rest.length + 1 := by
          have := hlen.1
          simp only [List.length_cons] at this
          omega
        have hp : ∀ pr ∈ bs.zip rest, ∀ c ∈ pr.2, checkBreak c = none := by
          intro pr hpr c hc
          exact hnb pr.2
            (List.mem_cons_of_mem p0 (List.of_mem_zip hpr).2) c hc
        have ht : ∀ pr ∈ bs.zip rest, checkBreak pr.1.chr = some pr.1.type := by
          intro pr hpr
          exact hty pr.1 (List.of_mem_zip hpr).1
        have hpack := packLoop_canon m sp mx (bs.zip rest) p0 p0 hp ht
        have hiz := canon_interleave_zip rest bs p0 h1 h2
        rw [computeLinesDefaultCore, if_neg htext, hps]
        rcases hdrop : bs.drop rest.length with _ | ⟨b, bs'⟩
        · rw [hdrop] at hiz
          refine ⟨[], ?_, by simp, by simp⟩
          rw [hcs, hiz, hpack]
        · rw [hdrop] at hiz
          refine ⟨canon [b.chr], ?_, ?_, ?_⟩
          · rw [hcs, hiz, hpack]
          · simpa [canon] using List.length_filter_le _ [b.chr]
          · intro c hc
            have hcb : c = b.chr := by
              have := List.mem_of_mem_filter hc
              simpa using this
            subst hcb
            have hbmem : b ∈ bs := List.drop_subset rest.length bs (by simp [hdrop])
            rw [hty b hbmem]
            simp

/-- Every line the packing loop emits has one of the `LineOK` shapes,
provided the open line has an accumulator shape and the pairs carry
scanned parts and correctly typed breakpoints. -/
theorem packLoop_lines (m : List Char → ℚ) (sp : List Char → Option ℚ)
    (mx : ℚ) (P : List (List Char)) :
    ∀ (pairs : List (Breakpoint × List Char)) (line prev : List Char),
      AccOK m sp mx P line →
      (∀ pr ∈ pairs, pr.2 ∈ P) →
      (∀ pr ∈ pairs, checkBreak pr.1.chr = some pr.1.type) →
      ∀ L ∈ packLoop m sp mx line prev pairs, LineOK m sp mx P L := by
  intro pairs
  induction pairs with
  | nil =>
    intro line prev hacc _ _ L hL
    simp only [packLoop] at hL
    by_cases h : line = []
    · rw [if_pos h] at hL
      simp at hL
    · rw [if_neg h] at hL
      have hLl := List.mem_singleton.mp hL
      subst hLl
      exact Or.inl hacc
  | cons hd rest ih =>
    intro line prev hacc hparts htypes
    obtain ⟨bp, part⟩ := hd
    obtain ⟨bc, bt⟩ := bp
    have hpartP : part ∈ P := hparts (⟨bc, bt⟩, part) (by simp)
    have hbp : checkBreak bc = some bt := htypes (⟨bc, bt⟩, part) (by simp)
    have ih' : ∀ line prev : List Char, AccOK m sp mx P line →
        ∀ L ∈ packLoop m sp mx line prev rest, LineOK m sp mx P L :=
      fun l p ha => ih l p ha
        (fun pr hpr => hparts pr (List.mem_cons_of_mem _ hpr))
        (fun pr hpr => htypes pr (List.mem_cons_of_mem _ hpr))
    have haccPart : AccOK m sp mx P part := Or.inr (Or.inl hpartP)
    intro L hL
    simp only [packLoop] at hL
    by_cases hskip : partIsBAIChar prev = true ∧ partIsBAIChar part = true
    · rw [if_pos hskip] at hL
      exact ih' line part hacc L hL
    · rw [if_neg hskip] at hL
      cases bt with
      | BK =>
        rw [if_pos rfl] at hL
        rcases List.mem_cons.mp hL with rfl | hL'
        · exact Or.inl hacc
        · exact ih' part part haccPart L hL'
      | SHY =>
        rw [if_neg (show ¬(BreakType.SHY = BreakType.BK) by decide),
          if_pos rfl] at hL
        by_cases hfit : jsLe (roundW (addW m sp (line ++ [] ++ part))) mx
        · rw [if_pos hfit] at hL
          exact ih' (line ++ [] ++ part) part (Or.inl hfit) L hL
        · rw [if_neg hfit] at hL
          dsimp only at hL
          rcases List.mem_cons.mp hL with rfl | hL'
          · exact Or.inr (Or.inl ⟨line, '-', rfl, hacc, Or.inl rfl⟩)
          · exact ih' part part haccPart L hL'
      | BA =>
        rw [if_neg (show ¬(BreakType.BA = BreakType.BK) by decide),
          if_neg (show ¬(BreakType.BA = BreakType.SHY) by decide)] at hL
        by_cases hfit : jsLe (roundW (addW m sp (line ++ [bc] ++ part))) mx
        · rw [if_pos hfit] at hL
          exact ih' (line ++ [bc] ++ part) part (Or.inl hfit) L hL
        · rw [if_neg hfit] at hL
          dsimp only at hL
          rcases List.mem_cons.mp hL with rfl | hL'
          · exact Or.inr (Or.inl ⟨line, bc, rfl, hacc, Or.inr (Or.inl hbp)⟩)
          · exact ih' part part haccPart L hL'
      | BAI =>
        rw [if_neg (show ¬(BreakType.BAI = BreakType.BK) by decide),
          if_neg (show ¬(BreakType.BAI = BreakType.SHY) by decide)] at hL
        by_cases hfit : jsLe (roundW (addW m sp (line ++ [bc] ++ part))) mx
        · rw [if_pos hfit] at hL
          exact ih' (line ++ [bc] ++ part) part (Or.inl hfit) L hL
        · rw [if_neg hfit] at hL
          dsimp only at hL
          rcases List.mem_cons.mp hL with rfl | hL'
          · exact Or.inl hacc
          · exact ih' part part haccPart L hL'
      | BB =>
        rw [if_neg (show ¬(BreakType.BB = BreakType.BK) by decide),
          if_neg (show ¬(BreakType.BB = BreakType.SHY) by decide)] at hL
        by_cases hfit : jsLe (roundW (addW m sp (line ++ [bc] ++ part))) mx
        · rw [if_pos hfit] at hL
          exact ih' (line ++ [bc] ++ part) part (Or.inl hfit) L hL
        · rw [if_neg hfit] at hL
          dsimp only at hL
          rcases List.mem_cons.mp hL with rfl | hL'
          · exact Or.inl hacc
          · exact ih' ([bc] ++ part) part
              (Or.inr (Or.inr ⟨bc, part, rfl, hpartP, Or.inl hbp⟩)) L hL'
      | B2 =>
        rw [if_neg (show ¬(BreakType.B2 = BreakType.BK) by decide),
          if_neg (show ¬(BreakType.B2 = BreakType.SHY) by decide)] at hL
        by_cases hfit : jsLe (roundW (addW m sp (line ++ [bc] ++ part))) mx
        · rw [if_pos hfit] at hL
          exact ih' (line ++ [bc] ++ part) part (Or.inl hfit) L hL
        · rw [if_neg hfit] at hL
          dsimp only at hL
          by_cases h1 : jsLe (addW m sp (line ++ [bc])) mx
          · rw [if_pos h1] at hL
            rcases List.mem_cons.mp hL with rfl | hL'
            · exact Or.inr (Or.inl ⟨line, bc, rfl, hacc, Or.inr (Or.inr hbp)⟩)
            · exact ih' part part haccPart L hL'
          · rw [if_neg h1] at hL
            by_cases h2 : jsLe (addW m sp ([bc] ++ part)) mx
            · rw [if_pos h2] at hL
              rcases List.mem_cons.mp hL with rfl | hL'
              · exact Or.inl hacc
              · exact ih' ([bc] ++ part) part
                  (Or.inr (Or.inr ⟨bc, part, rfl, hpartP, Or.inr hbp⟩)) L hL'
            · rw [if_neg h2] at hL
              rcases List.mem_cons.mp hL with rfl | hL'
              · exact Or.inl hacc
              · rcases List.mem_cons.mp hL' with rfl | hL''
                · exact Or.inr (Or.inr ⟨bc, rfl, hbp⟩)
                · exact ih' part part haccPart L hL''

theorem mathRound_thirty : mathRound 30 = 30 := by
  rw [mathRound, Int.floor_eq_iff]
  norm_num

/-- C2, refuted: with ten pixels per character, budget `15` and text
`a|b` (`|` is a break-after character), the BA split pushes the line
`a|` whose rounded width `20` exceeds the budget, yet `a|` is neither a
scanned text part (`a` and `b` are) nor a forced single-B2-boundary
line. -/
theorem C2_width_bound_counterexample :
    ¬ claimC2 mC2 (fun _ => some 0) 15 ['a', '|', 'b'] := by
  intro h
  have hnn : ∀ l, 0 ≤ mC2 l := by
    intro l
    rw [mC2]
    positivity
  have hmono : ∀ x y, mC2 x ≤ mC2 (x ++ y) ∧ mC2 y ≤ mC2 (x ++ y) := by
    intro x y
    have hx : (0 : ℚ) ≤ (x.length : ℚ) := by positivity
    have hy : (0 : ℚ) ≤ (y.length : ℚ) := by positivity
    simp only [mC2, List.length_append, Nat.cast_add]
    constructor <;> linarith
  have hscan : scanParts ['a', '|', 'b'] [] = ([['a'], ['b']], [⟨'|', .BA⟩]) := by
    decide
  have hcore : computeLinesDefaultCore mC2 (fun _ => some 0) 15 ['a', '|', 'b']
      = [['a', '|'], ['b']] := by
    simp only [computeLinesDefaultCore, hscan]
    norm_num +decide [packLoop, addW, mC2, roundW, jsLe, partIsBAIChar,
      mathRound_thirty]
  have hmem : ['a', '|']
      ∈ computeLinesDefaultCore mC2 (fun _ => some 0) 15 ['a', '|', 'b'] := by
    rw [hcore]
    simp
  have h20 : roundW (addW mC2 (fun _ => some 0) ['a', '|']) = some 20 := by
    norm_num [addW, mC2, roundW, mathRound_twenty]
  rcases h hnn hmono ['a', '|'] hmem with hfit | hb2 | hpart
  · rw [h20] at hfit
    rw [jsLe] at hfit
    norm_num at hfit
  · rcases hb2 with ⟨c, hc, _⟩
    simp at hc
  · rcases hpart with ⟨hmem2, _⟩
    rw [hscan] at hmem2
    simp at hmem2

/-- C2, amended: every line the default policy emits either fits the
budget after rounding, or is a scanned text part, or is a text part
prefixed by a break-before or B2 boundary character, or is one of those
shapes extended by a single retained boundary character (a rendered
hyphen, a break-after character, or a B2 character whose raw one-sided
width passed the unrounded tie-break comparison), or is a forced single
B2 boundary character; no non-negativity or monotonicity of the measure
is needed. -/
theorem C2_width_bound_amended (m : List Char → ℚ) (sp : List Char → Option ℚ)
    (mx : ℚ) (text : List Char) :
    ∀ L ∈ computeLinesDefaultCore m sp mx text,
      LineOK m sp mx (scanParts text []).1 L := by
  intro L hL
  by_cases htext : text = []
  · subst htext
    simp [computeLinesDefaultCore] at hL
  · rw [computeLinesDefaultCore, if_neg htext] at hL
    rcases hps : scanParts text [] with ⟨ps, bs⟩
    rw [hps] at hL
    cases ps with
    | nil => simp at hL
    | cons p0 rest =>
      dsimp only at hL
      refine packLoop_lines m sp mx (p0 :: rest) (bs.zip rest) p0 p0
        ?_ ?_ ?_ L hL
      · exact Or.inr (Or.inl (by simp))
      · intro pr hpr
        exact List.mem_cons_of_mem p0 (List.of_mem_zip hpr).2
      · intro pr hpr
        have hty := scanParts_typed text []
        rw [hps] at hty
        exact hty pr.1 (List.of_mem_zip hpr).1

theorem C2_width_bound_amended_witness :
    LineOK mC2 (fun _ => some 0) 15 (scanParts ['a'] []).1 ['a'] :=
  C2_width_bound_amended mC2 (fun _ => some 0) 15 ['a'] ['a'] (by decide)
